import Mathlib

/-!
Shallow embedding of the zsh-guide-epub pipeline (src/html2xhtml.py and
src/make_epub.py).

The third-party HTML parser/serializer (BeautifulSoup + lxml) is an external
collaborator of the repository: parsed documents are modelled as rose trees of
`Node` values (mirroring bs4's tag/NavigableString/Doctype nodes), and the
parse/serialize round-trips between pipeline stages (`str(soup)` followed by
`BeautifulSoup(...)`) are modelled as the identity on those trees.  Each Python
function is translated to a Lean function on this tree type; fallible Python
code (code that can raise) returns `Option`, with `none` standing for any
raised exception.
-/

namespace ZGE

/-- bs4 node model: a NavigableString, a Doctype, or a Tag with an ordered
attribute dictionary and child list. -/
inductive Node where
  | text (s : String)
  | doctype (dname pub sys : String)
  | elem (nm : String) (attrs : List (String × String)) (children : List Node)
deriving Repr

/-- A parsed document (bs4's `soup.contents`). -/
abbrev Doc := List Node

/-- The string bs4 stores for a `Doctype` created by `Doctype.for_name_and_ids`. -/
def doctypeText (dn pub sys : String) : String :=
  dn ++ " PUBLIC \"" ++ pub ++ "\" \"" ++ sys ++ "\""

def childrenOf : Node → List Node
  | .elem _ _ kids => kids
  | _ => []

def attrsOf : Node → List (String × String)
  | .elem _ as _ => as
  | _ => []

def nameOf : Node → String
  | .elem nm _ _ => nm
  | _ => ""

def isElemNode : Node → Bool
  | .elem _ _ _ => true
  | _ => false

/-- `tag.has_attr(k)` on bs4's attribute dictionary. -/
def hasAttr (attrs : List (String × String)) (k : String) : Bool :=
  attrs.any (fun p => p.1 == k)

/-- `tag[k]` lookup (first binding; bs4 attribute dicts have unique keys). -/
def getAttr (attrs : List (String × String)) (k : String) : Option String :=
  (attrs.find? (fun p => p.1 == k)).map (·.2)

/-- `tag[k] = v`: dictionary assignment leaves exactly one binding for `k`. -/
def setAttr (attrs : List (String × String)) (k v : String) : List (String × String) :=
  attrs.filter (fun p => p.1 != k) ++ [(k, v)]

/-- `del tag[k]`. -/
def delAttr (attrs : List (String × String)) (k : String) : List (String × String) :=
  attrs.filter (fun p => p.1 != k)

/-- `tag.text`: concatenation of all descendant strings (bs4 treats doctypes as
NavigableStrings, so they contribute their stored text). -/
def textOfNode : Node → String
  | .text s => s
  | .doctype dn pub sys => doctypeText dn pub sys
  | .elem _ _ kids => go kids
where go : List Node → String
  | [] => ""
  | n :: rest => textOfNode n ++ go rest

/-- First element named `nm` among the descendants of a node (the node itself
included), in document (preorder) order — bs4's `tag.find(nm)` /
`soup.<nm>` attribute access. -/
def findElemNode (nm : String) : Node → Option Node
  | .elem name attrs kids =>
    if name == nm then some (.elem name attrs kids) else go kids
  | _ => none
where go : List Node → Option Node
  | [] => none
  | n :: rest =>
    match findElemNode nm n with
    | some r => some r
    | none => go rest

/-- `find` over a node list (used for `soup.<nm>` on the whole document and for
searches below a given tag's children). -/
def findElemL (nm : String) (l : List Node) : Option Node :=
  findElemNode.go nm l

/-- All elements named `nm`, in document order — bs4's `find_all(nm)`. -/
def findAllNamedNode (nm : String) : Node → List Node
  | .elem name attrs kids =>
    (if name == nm then [Node.elem name attrs kids] else []) ++ go kids
  | _ => []
where go : List Node → List Node
  | [] => []
  | n :: rest => findAllNamedNode nm n ++ go rest

def findAllNamedL (nm : String) (l : List Node) : List Node :=
  findAllNamedNode.go nm l

/-- Modify (via `f`) the *first* element named `nm` in preorder.  The result
is `none` when no such element exists, `some none` when the element was found
but `f` failed on it (the search does not continue past the first match, just
as `soup.<nm>` commits to the first occurrence), and `some (some n')` on
success. -/
def modFirstNode (nm : String) (f : List (String × String) → List Node → Option Node) :
    Node → Option (Option Node)
  | .elem name attrs kids =>
    if name == nm then some (f attrs kids)
    else
      match go kids with
      | none => none
      | some none => some none
      | some (some kids') => some (some (Node.elem name attrs kids'))
  | _ => none
where go : List Node → Option (Option (List Node))
  | [] => none
  | n :: rest =>
    match modFirstNode nm f n with
    | some none => some none
    | some (some n') => some (some (n' :: rest))
    | none =>
      match go rest with
      | none => none
      | some none => some none
      | some (some rest') => some (some (n :: rest'))

/-- `soup.<nm>`-then-mutate over a node list: both "no match" and "the
modification raised" surface as `none` (a raised exception either way). -/
def modFirstL (nm : String) (f : List (String × String) → List Node → Option Node)
    (l : List Node) : Option (List Node) :=
  match modFirstNode.go nm f l with
  | none => none
  | some none => none
  | some (some l') => some l'

/-! ## src/html2xhtml.py -/

/-- The `DOCTYPES` table. -/
def DOCTYPES (version : String) : Option (String × String × String) :=
  if version == "1.0" then
    some ("html", "-//W3C//DTD XHTML 1.0 Strict//EN",
      "http://www.w3.org/TR/xhtml1/DTD/xhtml1-strict.dtd")
  else if version == "1.1" then
    some ("html", "-//W3C//DTD XHTML 1.1//EN",
      "http://www.w3.org/TR/xhtml11/DTD/xhtml11.dtd")
  else none

/-- `item.replaceWith('')` applied to the doctypes among `soup.contents`. -/
def clearDoctypeNode : Node → Node
  | Node.doctype _ _ _ => Node.text ""
  | other => other

/-- `set_doctype`: unsupported version raises; otherwise every existing
top-level doctype is `replaceWith('')` (an empty NavigableString) and the
canonical doctype is inserted at index 0. -/
def set_doctype (version : String) (d : Doc) : Option Doc :=
  (DOCTYPES version).map (fun t =>
    Node.doctype t.1 t.2.1 t.2.2 :: d.map clearDoctypeNode)

def xhtmlNamespace : String := "http://www.w3.org/1999/xhtml"

/-- `set_xml_namespace`: `soup.html['xmlns'] = ...`; `none` when there is no
html element (Python would raise on `None['xmlns']`). -/
def set_xml_namespace (d : Doc) : Option Doc :=
  modFirstL "html"
    (fun attrs kids => some (Node.elem "html" (setAttr attrs "xmlns" xhtmlNamespace) kids)) d

/-- `element_is_meta_charset`. -/
def isCharsetMeta (nm : String) (attrs : List (String × String)) : Bool :=
  nm == "meta" && (hasAttr attrs "charset" || getAttr attrs "http-equiv" == some "Content-Type")

def isCharsetMetaNode : Node → Bool
  | .elem nm attrs _ => isCharsetMeta nm attrs
  | _ => false

/-- Decompose every charset-declaring meta in a subtree (`find_all` +
`decompose`): matching elements are removed with their whole subtree,
surviving elements are processed recursively. -/
def removeCharsetNode : Node → Node
  | .elem nm attrs kids => .elem nm attrs (go kids)
  | n => n
where go : List Node → List Node
  | [] => []
  | n :: rest =>
    match n with
    | Node.elem nm attrs _ =>
      if isCharsetMeta nm attrs then go rest
      else removeCharsetNode n :: go rest
    | other => other :: go rest

def removeCharsetL (l : List Node) : List Node :=
  removeCharsetNode.go l

/-- The canonical UTF-8 charset meta appended by `set_charset`. -/
def canonicalCharsetMeta : Node :=
  Node.elem "meta" [("http-equiv", "Content-Type"), ("content", "text/html; charset=utf-8")] []

/-- `set_charset`: within `soup.html.head`, decompose every charset meta and
append the canonical one; `none` when `soup.html` or its `head` is missing. -/
def set_charset (d : Doc) : Option Doc :=
  modFirstL "html"
    (fun hAttrs hKids =>
      (modFirstL "head"
        (fun a k => some (Node.elem "head" a (removeCharsetL k ++ [canonicalCharsetMeta])))
        hKids).map (Node.elem "html" hAttrs))
    d

/-- `is_empty` from `remove_empty_paragraphs`, applied to a tag's children:
element child → not empty; NavigableString child that strips to nonempty →
not empty; everything else is skipped. -/
def isEmptyKids (kids : List Node) : Bool :=
  kids.all fun n =>
    match n with
    | Node.elem _ _ _ => false
    | Node.text s => s.trim == ""
    | Node.doctype dn pub sys => (doctypeText dn pub sys).trim == ""

/-- `remove_empty_paragraphs`: every `p` whose children are only whitespace
strings is decomposed.  (The Python loop takes a `find_all('p')` snapshot and
checks emptiness in preorder, so each `p` is judged on its original children —
an empty `p` has no element children, hence this recursive filter has the same
effect on the document.) -/
def remove_empty_paragraphs_node : Node → Node
  | .elem nm attrs kids => .elem nm attrs (go kids)
  | n => n
where go : List Node → List Node
  | [] => []
  | n :: rest =>
    match n with
    | Node.elem nm _ kids =>
      if nm == "p" && isEmptyKids kids then go rest
      else remove_empty_paragraphs_node n :: go rest
    | other => other :: go rest

def remove_empty_paragraphs (d : Doc) : Doc :=
  remove_empty_paragraphs_node.go d

/-- The per-anchor step of `convert_name_to_id`: `a['id'] = a['name']` then
`del a['name']`. -/
def convertAnchorAttrs (attrs : List (String × String)) : List (String × String) :=
  if hasAttr attrs "name" then
    match getAttr attrs "name" with
    | some v => delAttr (setAttr attrs "id" v) "name"
    | none => attrs
  else attrs

def convertNameToIdNode : Node → Node
  | .elem nm attrs kids =>
    .elem nm (if nm == "a" then convertAnchorAttrs attrs else attrs) (go kids)
  | n => n
where go : List Node → List Node
  | [] => []
  | n :: rest => convertNameToIdNode n :: go rest

def convertNameToIdL (l : List Node) : List Node :=
  convertNameToIdNode.go l

/-- `convert_name_to_id`: applies the conversion to every anchor below
`soup.html`. -/
def convert_name_to_id (d : Doc) : Option Doc :=
  modFirstL "html" (fun attrs kids => some (Node.elem "html" attrs (convertNameToIdL kids))) d

/-- `wrap_body`: replace the body's children with a single `div` holding them. -/
def wrap_body (d : Doc) : Option Doc :=
  modFirstL "body" (fun attrs kids => some (Node.elem "body" attrs [Node.elem "div" [] kids])) d

/-- `html2xhtml` (parsing and final serialization are the external library;
the function is the composite tree transformation). -/
def html2xhtml (d : Doc) (version : String := "1.1") : Option Doc := do
  let d1 ← set_doctype version d
  let d2 ← set_xml_namespace d1
  let d3 ← set_charset d2
  let d4 := remove_empty_paragraphs d3
  let d5 ← if version == "1.1" then convert_name_to_id d4 else pure d4
  wrap_body d5

/-! ## src/make_epub.py -/

structure Metadata where
  title : String
  author : String
deriving Repr, DecidableEq

/-- A chapter record.  `xhtml` holds the chapter document (the Python code
stores its serialized string; re-parsing is modelled as the identity). -/
structure Chapter where
  title : String
  number : Nat
  outname : String
  xhtml : Doc
deriving Repr

structure Book where
  metadata : Metadata
  chapters : List Chapter
deriving Repr

/-- `os.path.basename`: the part of the path after the last `/`. -/
def basename (s : String) : String :=
  String.mk ((s.data.reverse.takeWhile (fun c => c != '/')).reverse)

/-- Python `int` on a digit string. -/
def digitsToNat (ds : List Char) : Nat :=
  ds.foldl (fun a c => a * 10 + (c.toNat - 48)) 0

/-- One attempted match of `([0-9]+)\.html$` at the current position: because
of the `$` anchor, the digit run must extend exactly to five characters before
the end, so the regex engine's greedy/backtracking choice collapses to a single
candidate split. -/
def matchNumHtmlHere (cs : List Char) : Option Nat :=
  if cs.drop (cs.length - 5) == ".html".data && !(cs.take (cs.length - 5)).isEmpty
      && (cs.take (cs.length - 5)).all (·.isDigit) then
    some (digitsToNat (cs.take (cs.length - 5)))
  else none

/-- `re.search(r"([0-9]+)\.html$", s)`: try each start position left to right
and return `int(match.group(1))` of the first (leftmost) match. -/
def searchNumHtml : List Char → Option Nat
  | [] => none
  | c :: rest =>
    match matchNumHtmlHere (c :: rest) with
    | some n => some n
    | none => searchNumHtml rest

/-- The number-extraction part of `chapter_from_html`. -/
def chapterNumberFromName (outname : String) : Option Nat :=
  searchNumHtml outname.data

/-- `metadata_from_html`: title = text of `body.find_all("h1")[0]`, author =
text of `body.h2`; any missing piece raises. -/
def metadata_from_html (d : Doc) : Option Metadata :=
  match findElemL "html" d with
  | none => none
  | some htmlN =>
    match findElemL "body" (childrenOf htmlN) with
    | none => none
    | some bodyN =>
      match findAllNamedL "h1" (childrenOf bodyN) with
      | [] => none
      | h1 :: _ =>
        match findElemL "h2" (childrenOf bodyN) with
        | none => none
        | some h2N => some ⟨textOfNode h1, textOfNode h2N⟩

/-- `chapter_from_html`: title from the last `h1` of the body (computed first,
as in the source), then the chapter number from the trailing digits of the
basename; no match raises `ValueError`. -/
def chapter_from_html (filename : String) (d : Doc) : Option Chapter :=
  match findElemL "html" d with
  | none => none
  | some htmlN =>
    match findElemL "body" (childrenOf htmlN) with
    | none => none
    | some bodyN =>
      match (findAllNamedL "h1" (childrenOf bodyN)).getLast? with
      | none => none
      | some h1 =>
        match chapterNumberFromName (basename filename) with
        | none => none
        | some n => some ⟨textOfNode h1, n, basename filename, d⟩

/-! ### remove_html_toc_references

`find_all("a", {"href": toc})` takes a snapshot of the matching anchors in
document order; the loop then inspects each anchor's direct parent and
decomposes it when it is an `li`.  `decompose` destroys the whole subtree
(bs4 clears every descendant), so a later anchor that sat inside an already
decomposed list item raises when its parent is accessed.  We model anchors by
their paths (child-index lists) in the original tree and replay the loop. -/

/-- All anchors with `href == toc` in a subtree, in document order, each with
its path and its direct parent's name and path (`none` for a top-level anchor,
whose bs4 parent is the `[document]` object). -/
def tocAnchorPathsNode (toc : String) (parent : Option (String × List Nat)) (p : List Nat) :
    Node → List (List Nat × Option (String × List Nat))
  | .elem nm attrs kids =>
    (if nm == "a" && getAttr attrs "href" == some toc then [(p, parent)] else []) ++
      go (some (nm, p)) 0 kids
  | _ => []
where go (par : Option (String × List Nat)) (i : Nat) :
    List Node → List (List Nat × Option (String × List Nat))
  | [] => []
  | n :: rest => tocAnchorPathsNode toc par (p ++ [i]) n ++ go par (i + 1) rest

/- Note: the `where go` above closes over `p`, which is the parent's path only
for the recursive calls; the top-level entry point supplies paths itself. -/

/-- Anchor enumeration over a sibling list located at path prefix `pfx`. -/
def tocAnchorsFrom (toc : String) (parent : Option (String × List Nat)) (pfx : List Nat) :
    Nat → List Node → List (List Nat × Option (String × List Nat))
  | _, [] => []
  | i, n :: rest =>
    tocAnchorPathsNode toc parent (pfx ++ [i]) n ++ tocAnchorsFrom toc parent pfx (i + 1) rest

def tocAnchorsDoc (toc : String) (d : Doc) : List (List Nat × Option (String × List Nat)) :=
  tocAnchorsFrom toc none [] 0 d

def strictPrefixOf (r ap : List Nat) : Bool :=
  r.isPrefixOf ap && decide (r.length < ap.length)

/-- Replay of the decompose loop: an anchor lying inside an already decomposed
list item raises (its parent link was destroyed); an anchor whose direct parent
is an `li` marks that `li` for removal; any other anchor raises `ValueError`. -/
def processTocAnchors :
    List (List Nat × Option (String × List Nat)) → List (List Nat) → Option (List (List Nat))
  | [], removed => some removed
  | (ap, par) :: rest, removed =>
    if removed.any (fun r => strictPrefixOf r ap) then none
    else
      match par with
      | some (pname, pp) => if pname == "li" then processTocAnchors rest (pp :: removed) else none
      | none => none

/-- Remove from the tree every node whose (original) path is marked. -/
def removeMarkedNode (rem : List (List Nat)) (p : List Nat) : Node → Node
  | .elem nm attrs kids => .elem nm attrs (go 0 kids)
  | n => n
where go (i : Nat) : List Node → List Node
  | [] => []
  | n :: rest =>
    if rem.contains (p ++ [i]) then go (i + 1) rest
    else removeMarkedNode rem (p ++ [i]) n :: go (i + 1) rest

def removeMarkedFrom (rem : List (List Nat)) (pfx : List Nat) : Nat → List Node → List Node
  | _, [] => []
  | i, n :: rest =>
    if rem.contains (pfx ++ [i]) then removeMarkedFrom rem pfx (i + 1) rest
    else removeMarkedNode rem (pfx ++ [i]) n :: removeMarkedFrom rem pfx (i + 1) rest

/-- `remove_html_toc_references`. -/
def remove_html_toc_references (d : Doc) (toc : String) : Option Doc :=
  match processTocAnchors (tocAnchorsDoc toc d) [] with
  | none => none
  | some removed => some (removeMarkedFrom removed [] 0 d)

/-! ### book_from_tar_archive -/

/-- A tar member as the reader sees it: name, regular-file flag, and the
member's parsed HTML content (parsing is the external library). -/
structure TarMember where
  name : String
  isreg : Bool
  content : Doc
deriving Repr

def htmlTocFilename : String := "zshguide.html"

/-- `re.search(r"zshguide([0-9]{2})\.html$", name)`: with the `$` anchor this
holds exactly when the name ends with `zshguide` + two digits + `.html`. -/
def isChapterFileName (s : String) : Bool :=
  match s.data.reverse with
  | 'l' :: 'm' :: 't' :: 'h' :: '.' :: d2 :: d1 :: 'e' :: 'd' :: 'i' :: 'u' :: 'g' :: 'h' :: 's' :: 'z' :: _ =>
    d1.isDigit && d2.isDigit
  | _ => false

/-- The per-chapter-member pipeline: normalize, strip TOC references, extract. -/
def processChapterMember (m : TarMember) : Option Chapter :=
  (html2xhtml m.content).bind fun x =>
    (remove_html_toc_references x htmlTocFilename).bind fun y =>
      chapter_from_html m.name y

/-- The member scan loop of `book_from_tar_archive` (metadata reassigned on
every TOC member, chapters appended in scan order, any exception aborts). -/
def scanMembers :
    Option Metadata → List Chapter → List TarMember → Option (Option Metadata × List Chapter)
  | md, acc, [] => some (md, acc)
  | md, acc, m :: rest =>
    if !m.isreg then scanMembers md acc rest
    else if basename m.name == htmlTocFilename then
      match metadata_from_html m.content with
      | none => none
      | some md' => scanMembers (some md') acc rest
    else if isChapterFileName m.name then
      match processChapterMember m with
      | none => none
      | some c => scanMembers md (acc ++ [c]) rest
    else scanMembers md acc rest

/-- Python's `list.sort(key=...)` is stable; this insertion sort (insert after
all elements with key ≤) computes the same stable sort by `number`. -/
def insertChapter (c : Chapter) : List Chapter → List Chapter
  | [] => [c]
  | d :: ds => if d.number ≤ c.number then d :: insertChapter c ds else c :: d :: ds

def sortChapters (l : List Chapter) : List Chapter :=
  l.foldl (fun acc c => insertChapter c acc) []

/-- `book_from_tar_archive`. -/
def book_from_tar_archive (ms : List TarMember) : Option Book :=
  match scanMembers none [] ms with
  | none => none
  | some (none, _) => none
  | some (some md, chs) => some ⟨md, sortChapters chs⟩

/-! ### NCX builder -/

def ncxDoctypeNode : Node :=
  Node.doctype "ncx" "-//NISO//DTD ncx 2005-1//EN"
    "http://www.daisy.org/z3986/2005/ncx-2005-1.dtd"

def create_ncx_head (uuid : String) : Node :=
  Node.elem "head" []
    ([("uid", "urn:uuid:" ++ uuid), ("depth", "1"),
      ("totalPageCount", "0"), ("maxPageNumber", "0")].map
      (fun p => Node.elem "meta" [("name", "dtb:" ++ p.1), ("content", p.2)] []))

def create_ncx_title (md : Metadata) : Node :=
  Node.elem "docTitle" [] [Node.elem "text" [] [Node.text md.title]]

def create_ncx_nav_point (n : Nat) (title src : String) : Node :=
  Node.elem "navPoint" [("id", "navpoint-" ++ toString n), ("playOrder", toString n)]
    [Node.elem "navLabel" [] [Node.elem "text" [] [Node.text title]],
     Node.elem "content" [("src", src)] []]

def appendChildren : Node → List Node → Node
  | Node.elem nm a k, extra => Node.elem nm a (k ++ extra)
  | n, _ => n

/-- Every `h2` of a document in document order, paired with its
`previous_sibling` (`none` when the `h2` is its parent's first child). -/
def h2PrevsNode : Node → List (Option Node × Node)
  | .elem _ _ kids => go none kids
  | _ => []
where go (prev : Option Node) : List Node → List (Option Node × Node)
  | [] => []
  | n :: rest =>
    (match n with
     | Node.elem nm _ _ => if nm == "h2" then [(prev, n)] else []
     | _ => []) ++ h2PrevsNode n ++ go (some n) rest

def h2PrevsL (l : List Node) : List (Option Node × Node) :=
  h2PrevsNode.go none l

/-- `title.previous_sibling.a["id"]`: the previous sibling must exist and be a
tag, must contain an anchor, and that anchor must carry an `id`; otherwise the
attribute chain raises. -/
def h2FragmentSrc (outname : String) (pr : Option Node × Node) : Option (String × String) :=
  match pr.1 with
  | some (Node.elem _ _ kids) =>
    match findElemL "a" kids with
    | some (Node.elem _ aAttrs _) =>
      match getAttr aAttrs "id" with
      | some v => some (textOfNode pr.2, outname ++ "#" ++ v)
      | none => none
    | _ => none
  | _ => none

/-- The inner loop of `create_ncx_nav_map`: one nested navPoint per `h2`,
consuming consecutive `nav_number`s. -/
def create_sub_nav_points (outname : String) (n : Nat) :
    List (Option Node × Node) → Option (List Node × Nat)
  | [] => some ([], n)
  | pr :: rest =>
    match h2FragmentSrc outname pr with
    | none => none
    | some (lbl, src) =>
      match create_sub_nav_points outname (n + 1) rest with
      | none => none
      | some (l, n') => some (create_ncx_nav_point n lbl src :: l, n')

/-- The outer loop of `create_ncx_nav_map`, threading `nav_number` (initially
1) through chapters and their `h2` sub-entries. -/
def create_nav_points (n : Nat) : List Chapter → Option (List Node × Nat)
  | [] => some ([], n)
  | c :: rest =>
    match create_sub_nav_points c.outname (n + 1) (h2PrevsL c.xhtml) with
    | none => none
    | some (subs, n') =>
      match create_nav_points n' rest with
      | none => none
      | some (pts, n'') =>
        some (appendChildren (create_ncx_nav_point n c.title c.outname) subs :: pts, n'')

def create_ncx_nav_map (chapters : List Chapter) : Option Node :=
  (create_nav_points 1 chapters).map (fun pr => Node.elem "navMap" [] pr.1)

/-- `create_ncx` up to serialization: the returned path and the NCX document
tree. -/
def create_ncx_doc (book : Book) (uuid : String) : Option (String × Doc) :=
  (create_ncx_nav_map book.chapters).map (fun nm =>
    ("OEBPS/toc.ncx",
      [ncxDoctypeNode,
       Node.elem "ncx"
         [("xmlns", "http://www.daisy.org/z3986/2005/ncx/"), ("version", "2005-1")]
         [create_ncx_head uuid, create_ncx_title book.metadata, nm]]))

/-! ### Serialization model and the remaining builders -/

/-- Model of bs4's `str(soup)` for an attribute list. -/
def renderAttrs (attrs : List (String × String)) : String :=
  attrs.foldl (fun acc p => acc ++ " " ++ p.1 ++ "=\"" ++ p.2 ++ "\"") ""

/-- Model of bs4's `str(soup)` serialization (external library). -/
def renderNode : Node → String
  | .text s => s
  | .doctype dn pub sys => "<!DOCTYPE " ++ dn ++ " PUBLIC \"" ++ pub ++ "\" \"" ++ sys ++ "\">"
  | .elem nm attrs kids => "<" ++ nm ++ renderAttrs attrs ++ ">" ++ go kids ++ "</" ++ nm ++ ">"
where go : List Node → String
  | [] => ""
  | n :: rest => renderNode n ++ go rest

def renderDoc (d : Doc) : String :=
  renderNode.go d

def create_ncx (book : Book) (uuid : String) : Option (String × String) :=
  (create_ncx_doc book uuid).map (fun pr => (pr.1, renderDoc pr.2))

/-- `os.path.splitext(s)[0]` (extension split on the last dot; a dot that
starts the basename does not count). -/
def splitextRoot (s : String) : String :=
  match s.data.reverse.dropWhile (fun c => c != '.') with
  | '.' :: rest => if rest.isEmpty then s else String.mk rest.reverse
  | _ => s

def create_opf_metadata (md : Metadata) (uuid : String) : Node :=
  Node.elem "metadata" []
    [Node.elem "dc:title" [] [Node.text md.title],
     Node.elem "dc:creator" [] [Node.text md.author],
     Node.elem "dc:identifier" [("id", "bookid")] [Node.text uuid],
     Node.elem "dc:language" [] [Node.text "en-US"]]

def begin_opf_manifest : Node :=
  Node.elem "manifest" []
    [Node.elem "item"
      [("id", "ncx"), ("href", "toc.ncx"), ("media-type", "application/x-dtbncx+xml")] []]

def create_opf_doc (book : Book) (uuid : String) : String × Doc :=
  ("OEBPS/content.opf",
   [Node.elem "package"
     [("xmlns", "http://www.idpf.org/2007/opf"),
      ("xmlns:dc", "http://purl.org/dc/elements/1.1/"),
      ("unique-identifier", "bookid"), ("version", "2.0")]
     [create_opf_metadata book.metadata uuid,
      appendChildren begin_opf_manifest
        (book.chapters.map (fun c =>
          Node.elem "item"
            [("id", splitextRoot c.outname), ("href", c.outname),
             ("media-type", "application/xhtml+xml")] [])),
      Node.elem "spine" [("toc", "ncx")]
        (book.chapters.map (fun c =>
          Node.elem "itemref" [("idref", splitextRoot c.outname)] []))]])

def create_opf (book : Book) (uuid : String) : String × String :=
  ((create_opf_doc book uuid).1, renderDoc (create_opf_doc book uuid).2)

def create_mime : String × String :=
  ("mimetype", "application/epub+zip")

def create_container_doc : String × Doc :=
  ("META-INF/container.xml",
   [Node.elem "container"
     [("xmlns", "urn:oasis:names:tc:opendocument:xmlns:container"), ("version", "1.0")]
     [Node.elem "rootfiles" []
       [Node.elem "rootfile"
         [("full-path", "OEBPS/content.opf"),
          ("media-type", "application/oebps-package+xml")] []]]])

def create_container : String × String :=
  (create_container_doc.1, renderDoc create_container_doc.2)

/-- The entry list `main` assembles: chapters, then NCX and OPF, the mime
marker inserted at index 0, the container descriptor appended last.  `none`
when NCX building raises. -/
def epubContents (book : Book) (uuid : String) : Option (List (String × String)) :=
  match create_ncx book uuid with
  | none => none
  | some ncx =>
    some (create_mime ::
      (book.chapters.map (fun c => ("OEBPS/" ++ c.outname, renderDoc c.xhtml)) ++
        [ncx, create_opf book uuid, create_container]))

/-- One entry of the produced ZIP container. -/
structure ZipEntry where
  path : String
  data : ByteArray
  deflate : Bool

/-- The `ZipFile` write loop of `main`: every entry's text is UTF-8 encoded,
and every entry except the one named `mimetype` is deflate-compressed. -/
def writeEpub (entries : List (String × String)) : List ZipEntry :=
  entries.map (fun e => ⟨e.1, e.2.toUTF8, e.1 != "mimetype"⟩)

/-! ## Observation functions used in theorem statements -/

/-- Whether a subtree contains an element named `nm`. -/
def hasElemNamedNode (nm : String) : Node → Bool
  | .elem name _ kids => name == nm || go kids
  | _ => false
where go : List Node → Bool
  | [] => false
  | n :: rest => hasElemNamedNode nm n || go rest

def hasElemNamedL (nm : String) (l : List Node) : Bool :=
  hasElemNamedNode.go nm l

/-- Number of doctype nodes in a subtree. -/
def countDoctypeNode : Node → Nat
  | .doctype _ _ _ => 1
  | .elem _ _ kids => go kids
  | _ => 0
where go : List Node → Nat
  | [] => 0
  | n :: rest => countDoctypeNode n + go rest

def countDoctypeL (l : List Node) : Nat :=
  countDoctypeNode.go l

/-- Number of charset-declaring meta elements in a subtree. -/
def countCharsetNode : Node → Nat
  | .elem nm attrs kids => (if isCharsetMeta nm attrs then 1 else 0) + go kids
  | _ => 0
where go : List Node → Nat
  | [] => 0
  | n :: rest => countCharsetNode n + go rest

def countCharsetL (l : List Node) : Nat :=
  countCharsetNode.go l

/-- Number of bindings of key `k` in an attribute list. -/
def countAttrKey (k : String) (attrs : List (String × String)) : Nat :=
  (attrs.filter (fun p => p.1 == k)).length

/-- Attribute lists of all anchor elements in a subtree, in document order. -/
def anchorAttrsNode : Node → List (List (String × String))
  | .elem nm attrs kids => (if nm == "a" then [attrs] else []) ++ go kids
  | _ => []
where go : List Node → List (List (String × String))
  | [] => []
  | n :: rest => anchorAttrsNode n ++ go rest

def anchorAttrsL (l : List Node) : List (List (String × String)) :=
  anchorAttrsNode.go l

/-- Attribute lists of all paragraph elements in a subtree. -/
def pAttrsNode : Node → List (List (String × String))
  | .elem nm attrs kids => (if nm == "p" then [attrs] else []) ++ go kids
  | _ => []
where go : List Node → List (List (String × String))
  | [] => []
  | n :: rest => pAttrsNode n ++ go rest

def pAttrsL (l : List Node) : List (List (String × String)) :=
  pAttrsNode.go l

/-- Attribute lists of the paragraph elements whose children are not only
whitespace text (the paragraphs `remove_empty_paragraphs` keeps). -/
def nonEmptyPAttrsNode : Node → List (List (String × String))
  | .elem nm attrs kids => (if nm == "p" && !isEmptyKids kids then [attrs] else []) ++ go kids
  | _ => []
where go : List Node → List (List (String × String))
  | [] => []
  | n :: rest => nonEmptyPAttrsNode n ++ go rest

def nonEmptyPAttrsL (l : List Node) : List (List (String × String)) :=
  nonEmptyPAttrsNode.go l

/-- All charset-declaring metas in a subtree are childless (true of parsed
HTML, where `meta` is a void element). -/
def csMetasEmptyNode : Node → Bool
  | .elem nm attrs kids => (!(isCharsetMeta nm attrs) || kids.isEmpty) && go kids
  | _ => true
where go : List Node → Bool
  | [] => true
  | n :: rest => csMetasEmptyNode n && go rest

def csMetasEmptyL (l : List Node) : Bool :=
  csMetasEmptyNode.go l

/-- The name→id conversion applied only for version "1.1" (mirrors the
`if version == '1.1'` guard of `html2xhtml`). -/
def cvtIf (version : String) (l : List Node) : List Node :=
  if version == "1.1" then convertNameToIdL l else l

/-- The anchor-attribute transformation applied only for version "1.1". -/
def cvtAnchors (version : String) (l : List (List (String × String))) :
    List (List (String × String)) :=
  if version == "1.1" then l.map convertAnchorAttrs else l

/-! ## Claim C3: chapter-number parsing -/

/-- Trailing digit run of a character list. -/
def trailingDigits (l : List Char) : List Char :=
  (l.reverse.takeWhile (·.isDigit)).reverse

/-- List-level form of the specification's characterization of the
chapter-number parse. -/
def specTrailingL (cs : List Char) : Option Nat :=
  if cs.drop (cs.length - 5) == ".html".data
      && !(trailingDigits (cs.take (cs.length - 5))).isEmpty then
    some (digitsToNat (trailingDigits (cs.take (cs.length - 5))))
  else none

/-- The specification's characterization of the chapter-number parse
(refinement reference, stated from the spec's words): the integer formed by
the trailing digit run immediately preceding a final `.html`; `none` when
there is no such run. -/
def specTrailingNumber (s : String) : Option Nat :=
  specTrailingL s.data

/-! ## Observation definitions and concrete documents used in the theorems -/

def c1Book : Book := ⟨⟨"t", "a"⟩, []⟩

def c1Entries : List (String × String) := (epubContents c1Book "u").getD []

def c10ChapterNoPrev : Chapter :=
  ⟨"C", 1, "zshguide01.html",
   [Node.elem "html" [] [Node.elem "body" [] [Node.elem "h2" [] [Node.text "S"]]]]⟩

def c10ChapterNoId : Chapter :=
  ⟨"C", 1, "zshguide01.html",
   [Node.elem "html" [] [Node.elem "body" []
     [Node.elem "p" [] [Node.elem "a" [] []], Node.elem "h2" [] [Node.text "S"]]]]⟩

def c10ChapterOk : Chapter :=
  ⟨"C", 1, "zshguide01.html",
   [Node.elem "html" [] [Node.elem "body" []
     [Node.elem "p" [] [Node.elem "a" [("id", "x")] []], Node.elem "h2" [] [Node.text "S"]]]]⟩

/-- Whether a subtree still holds an anchor with `href` equal to the TOC
filename. -/
def hasTocAnchorNode (toc : String) : Node → Bool
  | .elem nm attrs kids => (nm == "a" && getAttr attrs "href" == some toc) || go kids
  | _ => false
where go : List Node → Bool
  | [] => false
  | n :: rest => hasTocAnchorNode toc n || go rest

def hasTocAnchorL (toc : String) (l : List Node) : Bool :=
  hasTocAnchorNode.go toc l

def c5Doc : Doc :=
  [Node.elem "li" []
    [Node.elem "span" [] [Node.elem "a" [("href", "zshguide.html")] [Node.text "toc"]]]]

def c5GoodDoc : Doc :=
  [Node.elem "ul" []
    [Node.elem "li" [] [Node.elem "a" [("href", "zshguide.html")] [Node.text "x"]],
     Node.elem "li" [] [Node.text "keep"]]]

/-- Whether processing a member cannot raise. -/
def memberOk (m : TarMember) : Bool :=
  if !m.isreg then true
  else if basename m.name == htmlTocFilename then (metadata_from_html m.content).isSome
  else if isChapterFileName m.name then (processChapterMember m).isSome
  else true

/-- The chapter a member contributes, if any. -/
def chapterOf (m : TarMember) : Option Chapter :=
  if !m.isreg then none
  else if basename m.name == htmlTocFilename then none
  else if isChapterFileName m.name then processChapterMember m
  else none

/-- The metadata a member contributes, if any. -/
def metaOf (m : TarMember) : Option Metadata :=
  if !m.isreg then none
  else if basename m.name == htmlTocFilename then metadata_from_html m.content
  else none

/-- Last-wins metadata accumulation over the scan. -/
def metaFold (md : Option Metadata) (ms : List TarMember) : Option Metadata :=
  ms.foldl (fun acc m => match metaOf m with | some x => some x | none => acc) md

def c2DocA : Doc :=
  [Node.elem "html" [] [Node.elem "head" [] [],
    Node.elem "body" [] [Node.elem "h1" [] [Node.text "T1"]]]]

def c2DocB : Doc :=
  [Node.elem "html" [] [Node.elem "head" [] [],
    Node.elem "body" [] [Node.elem "h1" [] [Node.text "T2"]]]]

def c2TocDoc : Doc :=
  [Node.elem "html" [] [Node.elem "head" [] [],
    Node.elem "body" [] [Node.elem "h1" [] [Node.text "Z"], Node.elem "h2" [] [Node.text "A"]]]]

def c2m1 : TarMember := ⟨"zshguide01.html", true, c2DocA⟩

def c2m2 : TarMember := ⟨"a/zshguide01.html", true, c2DocB⟩

def c2mToc : TarMember := ⟨"zshguide.html", true, c2TocDoc⟩

def c2w2 : TarMember := ⟨"zshguide02.html", true, c2DocB⟩

def c2wBookA : Book :=
  (book_from_tar_archive [c2mToc, c2m1, c2w2]).getD ⟨⟨"", ""⟩, []⟩

def c2wBookB : Book :=
  (book_from_tar_archive [c2mToc, c2w2, c2m1]).getD ⟨⟨"", ""⟩, []⟩

def c4Doc : Doc :=
  [Node.elem "html" [] [Node.elem "head" [] [], Node.elem "body" [] []]]

def c4Out : Doc :=
  [Node.doctype "html" "-//W3C//DTD XHTML 1.1//EN"
      "http://www.w3.org/TR/xhtml11/DTD/xhtml11.dtd",
   Node.elem "html" [("xmlns", xhtmlNamespace)]
     [Node.elem "head" [] [canonicalCharsetMeta],
      Node.elem "body" [] [Node.elem "div" [] []]]]

def c7Bkids : List Node := [Node.elem "a" [("name", "x")] []]

def c7Out : Doc :=
  [Node.doctype "html" "-//W3C//DTD XHTML 1.1//EN"
      "http://www.w3.org/TR/xhtml11/DTD/xhtml11.dtd",
   Node.elem "html" [("xmlns", xhtmlNamespace)]
     [Node.elem "head" [] [canonicalCharsetMeta],
      Node.elem "body" [] [Node.elem "div" [] [Node.elem "a" [("id", "x")] []]]]]

def c8Bkids : List Node :=
  [Node.elem "p" [("class", "e")] [],
   Node.elem "p" [("class", "k")] [Node.elem "img" [] []]]

def c8Out : Doc :=
  [Node.doctype "html" "-//W3C//DTD XHTML 1.1//EN"
      "http://www.w3.org/TR/xhtml11/DTD/xhtml11.dtd",
   Node.elem "html" [("xmlns", xhtmlNamespace)]
     [Node.elem "head" [] [canonicalCharsetMeta],
      Node.elem "body" []
        [Node.elem "div" [] [Node.elem "p" [("class", "k")] [Node.elem "img" [] []]]]]]

def c9Out : Doc :=
  [Node.doctype "html" "-//W3C//DTD XHTML 1.1//EN"
      "http://www.w3.org/TR/xhtml11/DTD/xhtml11.dtd",
   Node.text "",
   Node.elem "html" [("xmlns", xhtmlNamespace)]
     [Node.elem "head" [] [canonicalCharsetMeta],
      Node.elem "body" [] [Node.elem "div" [] [Node.elem "div" [] []]]]]

/-- `playOrder` attribute of a navPoint. -/
def navPlayOrderOf (pt : Node) : Option String :=
  getAttr (attrsOf pt) "playOrder"

/-- Nested navPoints of a top-level navPoint (children after navLabel and
content). -/
def navSubsOf (pt : Node) : List Node :=
  (childrenOf pt).drop 2

/-- The `src` of a navPoint's content child. -/
def navSrcOf (pt : Node) : Option String :=
  match (childrenOf pt).drop 1 with
  | c :: _ => getAttr (attrsOf c) "src"
  | [] => none

/-- The label text of a navPoint (text of its navLabel child). -/
def navLabelTextOf (pt : Node) : String :=
  match childrenOf pt with
  | lbl :: _ => textOfNode lbl
  | [] => ""

/-- The consecutive play-order strings `s, s+1, ..., s+k-1`. -/
def navNums (s k : Nat) : List (Option String) :=
  match k with
  | 0 => []
  | k + 1 => some (toString s) :: navNums (s + 1) k

/-- All playOrder values of a navPoint list in document (pre-)order:
each top-level point followed by its nested points. -/
def flatPlayOrders : List Node → List (Option String)
  | [] => []
  | pt :: rest =>
    navPlayOrderOf pt :: ((navSubsOf pt).map navPlayOrderOf ++ flatPlayOrders rest)

/-- Total number of navPoints a chapter list produces. -/
def navCount : List Chapter → Nat
  | [] => 0
  | c :: rest => 1 + (h2PrevsL c.xhtml).length + navCount rest

def c6Chapter : Chapter :=
  { title := "Ch1", number := 1, outname := "zshguide01.html",
    xhtml := [Node.elem "html" []
      [Node.elem "body" []
        [Node.elem "p" [] [Node.elem "a" [("id", "s1")] []],
         Node.elem "h2" [] [Node.text "Sec"]]]] }

def c6Book : Book :=
  { metadata := { title := "T", author := "A" }, chapters := [c6Chapter] }

def c6NcxDoc : Doc :=
  [ncxDoctypeNode,
   Node.elem "ncx"
     [("xmlns", "http://www.daisy.org/z3986/2005/ncx/"), ("version", "2005-1")]
     [create_ncx_head "u", create_ncx_title c6Book.metadata,
      Node.elem "navMap" []
        [appendChildren (create_ncx_nav_point 1 "Ch1" "zshguide01.html")
           [create_ncx_nav_point 2 ("Sec" ++ "") "zshguide01.html#s1"]]]]

theorem takeWhile_append_all {p : Char → Bool} (xs ys : List Char) (h : xs.all p = true) :
    (xs ++ ys).takeWhile p = xs ++ ys.takeWhile p := by
  induction xs with
  | nil => rfl
  | cons a t ih =>
    simp only [List.all_cons, Bool.and_eq_true] at h
    simp [List.takeWhile_cons, h.1, ih h.2]

theorem takeWhile_append_stop {p : Char → Bool} (xs ys : List Char) (h : xs.all p = false) :
    (xs ++ ys).takeWhile p = xs.takeWhile p := by
  induction xs with
  | nil => simp at h
  | cons a t ih =>
    simp only [List.all_cons] at h
    rcases Bool.and_eq_false_iff.mp h with ha | ht
    · simp [List.takeWhile_cons, ha]
    · cases hpa : p a with
      | false => simp [List.takeWhile_cons, hpa]
      | true => simp [List.takeWhile_cons, hpa, ih ht]

theorem trailingDigits_all (l : List Char) (h : l.all (·.isDigit) = true) :
    trailingDigits l = l := by
  unfold trailingDigits
  rw [List.takeWhile_eq_self_iff.mpr, List.reverse_reverse]
  intro x hx
  exact List.all_eq_true.mp h x (List.mem_reverse.mp hx)

theorem trailingDigits_cons (c : Char) (t : List Char)
    (h : (c :: t).all (·.isDigit) = false) :
    trailingDigits (c :: t) = trailingDigits t := by
  unfold trailingDigits
  rw [List.reverse_cons]
  cases ht : t.all (·.isDigit) with
  | true =>
    have hc : c.isDigit = false := by
      simp only [List.all_cons, ht, Bool.and_true] at h
      exact h
    rw [takeWhile_append_all _ _ (by simpa using ht)]
    rw [List.takeWhile_eq_self_iff.mpr
      (fun x hx => List.all_eq_true.mp ht x (List.mem_reverse.mp hx))]
    simp [List.takeWhile_cons, hc]
  | false =>
    rw [takeWhile_append_stop _ _ (by simpa using ht)]

theorem matchHere_some (cs : List Char) (n : Nat) (h : matchNumHtmlHere cs = some n) :
    specTrailingL cs = some n := by
  unfold matchNumHtmlHere at h
  by_cases hcond : (cs.drop (cs.length - 5) == ".html".data
      && !(cs.take (cs.length - 5)).isEmpty
      && (cs.take (cs.length - 5)).all (·.isDigit)) = true
  · rw [if_pos hcond] at h
    simp only [Bool.and_eq_true, beq_iff_eq, Bool.not_eq_true'] at hcond
    obtain ⟨⟨hsuf, hne⟩, hall⟩ := hcond
    unfold specTrailingL
    rw [trailingDigits_all _ hall]
    rw [if_pos (by simp [hsuf, hne])]
    exact h
  · rw [if_neg hcond] at h
    exact absurd h (by simp)

theorem matchHere_none_cons (c : Char) (rest : List Char)
    (h : matchNumHtmlHere (c :: rest) = none) :
    specTrailingL (c :: rest) = specTrailingL rest := by
  by_cases h5 : 5 ≤ rest.length
  · have hk : (c :: rest).length - 5 = (rest.length - 5) + 1 := by
      simp only [List.length_cons]; omega
    have hstem : (c :: rest).take ((c :: rest).length - 5) =
        c :: rest.take (rest.length - 5) := by
      rw [hk]; rfl
    have hsuf : (c :: rest).drop ((c :: rest).length - 5) =
        rest.drop (rest.length - 5) := by
      rw [hk]; rfl
    by_cases hs : rest.drop (rest.length - 5) = ".html".data
    · have hallfalse : (c :: rest.take (rest.length - 5)).all (·.isDigit) = false := by
        by_contra hcontra
        have hall : (c :: rest.take (rest.length - 5)).all (·.isDigit) = true := by
          cases hx : (c :: rest.take (rest.length - 5)).all (·.isDigit)
          · exact absurd hx hcontra
          · rfl
        unfold matchNumHtmlHere at h
        rw [hstem, hsuf] at h
        simp [hs, hall] at h
      unfold specTrailingL
      rw [hstem, hsuf, trailingDigits_cons _ _ hallfalse]
    · unfold specTrailingL
      rw [hsuf]
      have hbe : (rest.drop (rest.length - 5) == ".html".data) = false := by
        simp [hs]
      simp [hbe]
  · have hk1 : (c :: rest).length - 5 = 0 := by
      simp only [List.length_cons]; omega
    have hk0 : rest.length - 5 = 0 := by omega
    have hner : ¬ (rest = ".html".data) := by
      intro hr
      have h5' : rest.length = 5 := by rw [hr]; rfl
      omega
    unfold specTrailingL
    rw [hk1, hk0]
    simp [trailingDigits, hner]

theorem searchNum_eq_specTrailing (cs : List Char) :
    searchNumHtml cs = specTrailingL cs := by
  induction cs with
  | nil => rfl
  | cons c rest ih =>
    unfold searchNumHtml
    cases h : matchNumHtmlHere (c :: rest) with
    | some n => exact (matchHere_some _ _ h).symm
    | none => rw [ih, matchHere_none_cons _ _ h]

/-- Claim C3: for every source filename, the chapter number is parsed as the
integer formed by the trailing digit run of the basename immediately preceding
`.html`, and when no such match exists `chapter_from_html` fails (raises)
instead of using any default. -/
theorem chapter_number_is_trailing_digit_run (filename : String) (d : Doc) :
    chapterNumberFromName (basename filename) = specTrailingNumber (basename filename) ∧
    (∀ c, chapter_from_html filename d = some c →
      specTrailingNumber (basename filename) = some c.number) ∧
    (specTrailingNumber (basename filename) = none → chapter_from_html filename d = none) := by
  have hmain : chapterNumberFromName (basename filename) =
      specTrailingNumber (basename filename) :=
    searchNum_eq_specTrailing (basename filename).data
  refine ⟨hmain, ?_, ?_⟩
  · intro c hc
    unfold chapter_from_html at hc
    split at hc
    · exact absurd hc (by simp)
    split at hc
    · exact absurd hc (by simp)
    split at hc
    · exact absurd hc (by simp)
    split at hc
    · exact absurd hc (by simp)
    · rename_i n hnum
      cases hc
      rw [← hmain, hnum]
  · intro hnone
    unfold chapter_from_html
    split
    · rfl
    split
    · rfl
    split
    · rfl
    split
    · rfl
    · rename_i n hnum
      rw [hmain, hnone] at hnum
      simp at hnum

/-- Witness for C3: `...07.html` and `...42.html` parse to 7 and 42, and a
filename with no trailing digits makes extraction fail. -/
theorem chapter_number_is_trailing_digit_run_witness :
    chapter_from_html "nonum.html" [] = none ∧
    chapterNumberFromName "zshguide07.html" = some 7 ∧
    chapterNumberFromName (basename "dir/zshguide42.html") = some 42 :=
  ⟨(chapter_number_is_trailing_digit_run "nonum.html" []).2.2 (by rfl),
   by rfl, by rfl⟩

/-! ## Claim C1: ZIP layout (mimetype first and uncompressed, rest deflated) -/

theorem oebps_prefix_ne_mimetype (s : String) : ("OEBPS/" ++ s) ≠ "mimetype" := by
  intro h
  have hd := congrArg String.data h
  rw [String.data_append] at hd
  simp at hd

theorem create_ncx_path (book : Book) (uid : String) (p : String × String)
    (h : create_ncx book uid = some p) : p.1 = "OEBPS/toc.ncx" := by
  unfold create_ncx create_ncx_doc at h
  rcases hm : create_ncx_nav_map book.chapters with _ | nm
  · rw [hm] at h
    simp at h
  · rw [hm] at h
    simp only [Option.map_some'] at h
    cases h
    rfl

/-- Claim C1: for every entry list `main` hands to the ZIP writer, the first
produced entry is the mimetype marker (path `mimetype`, content exactly
`application/epub+zip`) stored without compression, every other entry is
deflate-compressed, and every entry's bytes are the UTF-8 encoding of its
text content. -/
theorem zip_mimetype_first_uncompressed (book : Book) (uid : String)
    (entries : List (String × String)) (h : epubContents book uid = some entries) :
    (writeEpub entries).head? =
      some ⟨"mimetype", ("application/epub+zip" : String).toUTF8, false⟩ ∧
    (∀ z ∈ (writeEpub entries).drop 1, z.deflate = true) ∧
    (writeEpub entries).map (·.data) = entries.map (fun e => e.2.toUTF8) := by
  unfold epubContents at h
  rcases hncx : create_ncx book uid with _ | ncx
  · rw [hncx] at h
    simp at h
  rw [hncx] at h
  simp only [Option.some.injEq] at h
  subst h
  refine ⟨rfl, ?_, ?_⟩
  · intro z hz
    simp only [writeEpub, List.map_cons, List.drop_succ_cons, List.drop_zero,
      List.mem_map, List.mem_append, List.mem_cons] at hz
    obtain ⟨e, he, rfl⟩ := hz
    have hne : e.1 ≠ "mimetype" := by
      rcases he with hch | he
      · obtain ⟨c, _, rfl⟩ := hch
        exact oebps_prefix_ne_mimetype c.outname
      · rcases he with rfl | he
        · rw [create_ncx_path book uid e hncx]
          decide
        · rcases he with rfl | he
          · show ("OEBPS/content.opf" : String) ≠ "mimetype"
            decide
          · rcases he with rfl | he
            · show ("META-INF/container.xml" : String) ≠ "mimetype"
              decide
            · exact absurd he (List.not_mem_nil e)
    simpa [bne_iff_ne] using hne
  · simp [writeEpub, List.map_map]

/-- Witness for C1 at a concrete book. -/
theorem zip_mimetype_first_uncompressed_witness :
    epubContents c1Book "u" = some c1Entries ∧
    (writeEpub c1Entries).head? =
      some ⟨"mimetype", ("application/epub+zip" : String).toUTF8, false⟩ :=
  ⟨by rfl, (zip_mimetype_first_uncompressed c1Book "u" c1Entries (by rfl)).1⟩

/-! ## Claim C10: navigation building fails without a preceding anchor -/

/-- Claim C10: NCX building is total only under the unstated precondition that
every `h2`'s immediately preceding sibling contains an anchor with an `id`:
a chapter whose `h2` has no previous sibling fails, a chapter whose `h2`'s
previous sibling holds an anchor without `id` fails, and the same chapter with
a proper preceding anchor succeeds. -/
theorem ncx_requires_prev_sibling_anchor :
    create_ncx_doc ⟨⟨"B", "A"⟩, [c10ChapterNoPrev]⟩ "u" = none ∧
    create_ncx_doc ⟨⟨"B", "A"⟩, [c10ChapterNoId]⟩ "u" = none ∧
    (create_ncx_doc ⟨⟨"B", "A"⟩, [c10ChapterOk]⟩ "u").isSome = true :=
  ⟨rfl, rfl, rfl⟩

/-! ## Claim C5: stripping of table-of-contents links -/

theorem tocGo_eq_from (toc : String) (par : Option (String × List Nat)) (p : List Nat) :
    ∀ (l : List Node) (i : Nat),
      tocAnchorPathsNode.go toc p par i l = tocAnchorsFrom toc par p i l := by
  intro l
  induction l with
  | nil => intro i; rfl
  | cons n t ih =>
    intro i
    simp only [tocAnchorPathsNode.go, tocAnchorsFrom, ih]

theorem removeGo_eq_from (rem : List (List Nat)) (p : List Nat) :
    ∀ (l : List Node) (i : Nat),
      removeMarkedNode.go rem p i l = removeMarkedFrom rem p i l := by
  intro l
  induction l with
  | nil => intro i; rfl
  | cons n t ih =>
    intro i
    simp only [removeMarkedNode.go, removeMarkedFrom, ih]

/-- Every anchor path reported below a node extends that node's path. -/
theorem tocAnchors_extend (n : Node) :
    ∀ (toc : String) (par : Option (String × List Nat)) (p : List Nat)
      (pr : List Nat × Option (String × List Nat)),
      pr ∈ tocAnchorPathsNode toc par p n → p <+: pr.1 := by
  induction n using Node.rec
    (motive_2 := fun l => ∀ (toc : String) (par : Option (String × List Nat))
      (pfx : List Nat) (i : Nat) (pr : List Nat × Option (String × List Nat)),
      pr ∈ tocAnchorsFrom toc par pfx i l → ∃ j, (pfx ++ [j]) <+: pr.1) with
  | text s => intro toc par p pr h; exact absurd h (by simp [tocAnchorPathsNode])
  | doctype a b c => intro toc par p pr h; exact absurd h (by simp [tocAnchorPathsNode])
  | elem nm attrs kids ih =>
    intro toc par p pr h
    simp only [tocAnchorPathsNode, tocGo_eq_from, List.mem_append] at h
    rcases h with h | h
    · split at h
      · simp only [List.mem_singleton] at h
        subst h
        exact List.prefix_refl p
      · exact absurd h (List.not_mem_nil pr)
    · obtain ⟨j, hj⟩ := ih toc (some (nm, p)) p 0 pr h
      exact ((p.prefix_append [j]).trans hj)
  | nil =>
    rename_i toc par pfx i pr h
    exact absurd h (by simp [tocAnchorsFrom])
  | cons n t ihn iht =>
    rename_i toc par pfx i pr h
    simp only [tocAnchorsFrom, List.mem_append] at h
    rcases h with h | h
    · exact ⟨i, ihn toc par (pfx ++ [i]) pr h⟩
    · exact iht toc par pfx (i + 1) pr h

/-- Shape of a reported anchor: either the inspected node itself (carrying the
caller-supplied parent) or a descendant whose parent path is one step above
its own path and at least as deep as the inspected node. -/
theorem tocAnchors_shape (n : Node) :
    ∀ (toc : String) (par : Option (String × List Nat)) (p : List Nat)
      (pr : List Nat × Option (String × List Nat)),
      pr ∈ tocAnchorPathsNode toc par p n →
      (pr.1 = p ∧ pr.2 = par) ∨
      (∃ nm' pp j, pr.2 = some (nm', pp) ∧ pr.1 = pp ++ [j] ∧ p.length ≤ pp.length) := by
  induction n using Node.rec
    (motive_2 := fun l => ∀ (toc : String) (par : Option (String × List Nat))
      (pfx : List Nat) (i : Nat) (pr : List Nat × Option (String × List Nat)),
      pr ∈ tocAnchorsFrom toc par pfx i l →
      (∃ j, pr.1 = pfx ++ [j] ∧ pr.2 = par) ∨
      (∃ nm' pp j, pr.2 = some (nm', pp) ∧ pr.1 = pp ++ [j] ∧ pfx.length < pp.length)) with
  | text s => intro toc par p pr h; exact absurd h (by simp [tocAnchorPathsNode])
  | doctype a b c => intro toc par p pr h; exact absurd h (by simp [tocAnchorPathsNode])
  | elem nm attrs kids ih =>
    intro toc par p pr h
    simp only [tocAnchorPathsNode, tocGo_eq_from, List.mem_append] at h
    rcases h with h | h
    · split at h
      · simp only [List.mem_singleton] at h
        subst h
        exact Or.inl ⟨rfl, rfl⟩
      · exact absurd h (List.not_mem_nil pr)
    · rcases ih toc (some (nm, p)) p 0 pr h with ⟨j, hj1, hj2⟩ | ⟨nm', pp, j, h1, h2, h3⟩
      · exact Or.inr ⟨nm, p, j, hj2, hj1, le_refl _⟩
      · exact Or.inr ⟨nm', pp, j, h1, h2, le_of_lt h3⟩
  | nil =>
    rename_i toc par pfx i pr h
    exact absurd h (by simp [tocAnchorsFrom])
  | cons n t ihn iht =>
    rename_i toc par pfx i pr h
    simp only [tocAnchorsFrom, List.mem_append] at h
    rcases h with h | h
    · rcases ihn toc par (pfx ++ [i]) pr h with ⟨h1, h2⟩ | ⟨nm', pp, j, h1, h2, h3⟩
      · exact Or.inl ⟨i, h1, h2⟩
      · refine Or.inr ⟨nm', pp, j, h1, h2, ?_⟩
        have : (pfx ++ [i]).length = pfx.length + 1 := by simp
        omega
    · exact iht toc par pfx (i + 1) pr h

/-- If the decompose loop finishes, every scanned anchor's direct parent was a
list item whose path is among the removed paths, and the initial removal
accumulator survives. -/
theorem processToc_mem (anchors : List (List Nat × Option (String × List Nat))) :
    ∀ (removed res : List (List Nat)), processTocAnchors anchors removed = some res →
      (∀ pr ∈ anchors, ∃ pp, pr.2 = some ("li", pp) ∧ pp ∈ res) ∧
      (∀ r ∈ removed, r ∈ res) := by
  induction anchors with
  | nil =>
    intro removed res h
    simp only [processTocAnchors, Option.some.injEq] at h
    subst h
    exact ⟨fun pr hpr => absurd hpr (List.not_mem_nil pr), fun r hr => hr⟩
  | cons pr0 rest ih =>
    intro removed res h
    obtain ⟨ap, par⟩ := pr0
    unfold processTocAnchors at h
    split at h
    · exact absurd h (by simp)
    rcases par with _ | ⟨pname, pp⟩
    · simp at h
    by_cases hli : pname = "li"
    · subst hli
      simp only [beq_self_eq_true, if_true] at h
      obtain ⟨hrest, hacc⟩ := ih (pp :: removed) res h
      refine ⟨?_, ?_⟩
      · intro pr hpr
        rcases List.mem_cons.mp hpr with heq | hmem
        · subst heq
          exact ⟨pp, rfl, hacc pp (List.mem_cons_self pp removed)⟩
        · exact hrest pr hmem
      · intro r hr
        exact hacc r (List.mem_cons_of_mem pp hr)
    · have hbe : (pname == "li") = false := by
        simpa using hli
      simp only [hbe, if_false] at h
      simp at h

/-- Core removal lemma: if every anchor reported in a subtree lies strictly
below some removed path (deeper than the subtree's own path), then after
removal the subtree holds no TOC anchor. -/
theorem removeMarked_no_anchor (n : Node) :
    ∀ (toc : String) (par : Option (String × List Nat)) (rem : List (List Nat)) (p : List Nat),
      ¬ p ∈ rem →
      (∀ pr ∈ tocAnchorPathsNode toc par p n,
        ∃ r ∈ rem, r <+: pr.1 ∧ p.length ≤ r.length) →
      hasTocAnchorNode toc (removeMarkedNode rem p n) = false := by
  induction n using Node.rec
    (motive_2 := fun l => ∀ (toc : String) (par : Option (String × List Nat))
      (rem : List (List Nat)) (pfx : List Nat) (i : Nat),
      (∀ pr ∈ tocAnchorsFrom toc par pfx i l,
        ∃ r ∈ rem, r <+: pr.1 ∧ pfx.length < r.length) →
      hasTocAnchorL toc (removeMarkedFrom rem pfx i l) = false) with
  | text s => intro toc par rem p hp hH; rfl
  | doctype a b c => intro toc par rem p hp hH; rfl
  | elem nm attrs kids ih =>
    intro toc par rem p hp hH
    have hanch : (nm == "a" && getAttr attrs "href" == some toc) = false := by
      by_contra hcontra
      have hanch' : (nm == "a" && getAttr attrs "href" == some toc) = true := by
        cases hx : (nm == "a" && getAttr attrs "href" == some toc)
        · exact absurd hx hcontra
        · rfl
      have hmem : ((p, par) : List Nat × Option (String × List Nat)) ∈
          tocAnchorPathsNode toc par p (Node.elem nm attrs kids) := by
        simp [tocAnchorPathsNode, hanch']
      obtain ⟨r, hr, hpre, hlen⟩ := hH _ hmem
      have : r = p := hpre.eq_of_length_le hlen
      exact hp (this ▸ hr)
    have hkids : hasTocAnchorL toc (removeMarkedFrom rem p 0 kids) = false := by
      apply ih toc (some (nm, p)) rem p 0
      intro pr hpr
      have hmem : pr ∈ tocAnchorPathsNode toc par p (Node.elem nm attrs kids) := by
        simp [tocAnchorPathsNode, tocGo_eq_from, List.mem_append]
        right
        exact hpr
      obtain ⟨r, hr, hpre, hlen⟩ := hH pr hmem
      refine ⟨r, hr, hpre, ?_⟩
      rcases Nat.lt_or_ge p.length r.length with hlt | hge
      · exact hlt
      · exfalso
        have hext : p <+: pr.1 :=
          tocAnchors_extend (Node.elem nm attrs kids) toc par p pr
            (by simp only [tocAnchorPathsNode, tocGo_eq_from, List.mem_append]
                right
                exact hpr)
        have hrp : r = p :=
          (List.prefix_of_prefix_length_le hpre hext hge).eq_of_length_le hlen
        exact hp (hrp ▸ hr)
    have hrw : removeMarkedNode rem p (Node.elem nm attrs kids) =
        Node.elem nm attrs (removeMarkedFrom rem p 0 kids) := by
      show Node.elem nm attrs (removeMarkedNode.go rem p 0 kids) = _
      rw [removeGo_eq_from]
    rw [hrw]
    show ((nm == "a" && getAttr attrs "href" == some toc) ||
      hasTocAnchorL toc (removeMarkedFrom rem p 0 kids)) = false
    rw [hanch, hkids]
    rfl
  | nil => rfl
  | cons n t ihn iht =>
    rename_i toc par rem pfx i hH
    unfold removeMarkedFrom
    split
    · apply iht toc par rem pfx (i + 1)
      intro pr hpr
      exact hH pr (by simp [tocAnchorsFrom, List.mem_append]; right; exact hpr)
    · rename_i hnotin
      show (hasTocAnchorNode toc (removeMarkedNode rem (pfx ++ [i]) n) ||
        hasTocAnchorL toc (removeMarkedFrom rem pfx (i + 1) t)) = false
      have h1 : hasTocAnchorNode toc (removeMarkedNode rem (pfx ++ [i]) n) = false := by
        apply ihn toc par rem (pfx ++ [i])
        · simpa using hnotin
        · intro pr hpr
          obtain ⟨r, hr, hpre, hlen⟩ := hH pr
            (by simp [tocAnchorsFrom, List.mem_append]; left; exact hpr)
          refine ⟨r, hr, hpre, by simp; omega⟩
      have h2 : hasTocAnchorL toc (removeMarkedFrom rem pfx (i + 1) t) = false := by
        apply iht toc par rem pfx (i + 1)
        intro pr hpr
        exact hH pr (by simp [tocAnchorsFrom, List.mem_append]; right; exact hpr)
      rw [h1, h2]
      rfl

/-- List-level corollary of `tocAnchors_shape`. -/
theorem tocAnchorsFrom_shape (l : List Node) :
    ∀ (toc : String) (par : Option (String × List Nat)) (pfx : List Nat) (i : Nat)
      (pr : List Nat × Option (String × List Nat)),
      pr ∈ tocAnchorsFrom toc par pfx i l →
      (∃ j, pr.1 = pfx ++ [j] ∧ pr.2 = par) ∨
      (∃ nm' pp j, pr.2 = some (nm', pp) ∧ pr.1 = pp ++ [j] ∧ pfx.length < pp.length) := by
  induction l with
  | nil => intro toc par pfx i pr h; exact absurd h (by simp [tocAnchorsFrom])
  | cons n t ih =>
    intro toc par pfx i pr h
    simp only [tocAnchorsFrom, List.mem_append] at h
    rcases h with h | h
    · rcases tocAnchors_shape n toc par (pfx ++ [i]) pr h with ⟨h1, h2⟩ | ⟨nm', pp, j, h1, h2, h3⟩
      · exact Or.inl ⟨i, h1, h2⟩
      · refine Or.inr ⟨nm', pp, j, h1, h2, ?_⟩
        have hlen : (pfx ++ [i]).length = pfx.length + 1 := by simp
        omega
    · exact ih toc par pfx (i + 1) pr h

/-- List-level corollary of `removeMarked_no_anchor`. -/
theorem removeMarkedFrom_no_anchor (l : List Node) :
    ∀ (toc : String) (par : Option (String × List Nat)) (rem : List (List Nat))
      (pfx : List Nat) (i : Nat),
      (∀ pr ∈ tocAnchorsFrom toc par pfx i l,
        ∃ r ∈ rem, r <+: pr.1 ∧ pfx.length < r.length) →
      hasTocAnchorL toc (removeMarkedFrom rem pfx i l) = false := by
  induction l with
  | nil => intro toc par rem pfx i hH; rfl
  | cons n t ih =>
    intro toc par rem pfx i hH
    unfold removeMarkedFrom
    split
    · apply ih toc par rem pfx (i + 1)
      intro pr hpr
      exact hH pr (by simp only [tocAnchorsFrom, List.mem_append]; right; exact hpr)
    · rename_i hnotin
      show (hasTocAnchorNode toc (removeMarkedNode rem (pfx ++ [i]) n) ||
        hasTocAnchorL toc (removeMarkedFrom rem pfx (i + 1) t)) = false
      have h1 : hasTocAnchorNode toc (removeMarkedNode rem (pfx ++ [i]) n) = false := by
        apply removeMarked_no_anchor n toc par rem (pfx ++ [i])
        · simpa using hnotin
        · intro pr hpr
          obtain ⟨r, hr, hpre, hlen⟩ := hH pr
            (by simp only [tocAnchorsFrom, List.mem_append]; left; exact hpr)
          refine ⟨r, hr, hpre, by simp; omega⟩
      have h2 : hasTocAnchorL toc (removeMarkedFrom rem pfx (i + 1) t) = false := by
        apply ih toc par rem pfx (i + 1)
        intro pr hpr
        exact hH pr (by simp only [tocAnchorsFrom, List.mem_append]; right; exact hpr)
      rw [h1, h2]
      rfl

/-- Claim C5 (amended): the code inspects the anchor's *direct parent*, not an
arbitrary list-item ancestor.  If the strip succeeds, every TOC anchor's
direct parent was a list item and no TOC anchor survives in the output (each
was removed with its whole list item); if some TOC anchor's direct parent is
not a list item, the function raises instead of silently ignoring the
anchor. -/
theorem toc_link_requires_li_parent (d : Doc) (toc : String) :
    (∀ out, remove_html_toc_references d toc = some out →
      (∀ pr ∈ tocAnchorsDoc toc d, ∃ pp, pr.2 = some ("li", pp)) ∧
      hasTocAnchorL toc out = false) ∧
    ((∃ pr ∈ tocAnchorsDoc toc d, ∀ pp, pr.2 ≠ some ("li", pp)) →
      remove_html_toc_references d toc = none) := by
  have hmain : ∀ out, remove_html_toc_references d toc = some out →
      (∀ pr ∈ tocAnchorsDoc toc d, ∃ pp, pr.2 = some ("li", pp)) ∧
      hasTocAnchorL toc out = false := by
    intro out hout
    unfold remove_html_toc_references at hout
    split at hout
    · exact absurd hout (by simp)
    · rename_i removed hproc
      simp only [Option.some.injEq] at hout
      subst hout
      obtain ⟨hanchors, _⟩ := processToc_mem (tocAnchorsDoc toc d) [] removed hproc
      refine ⟨fun pr hpr => ⟨(hanchors pr hpr).choose, (hanchors pr hpr).choose_spec.1⟩, ?_⟩
      apply removeMarkedFrom_no_anchor d toc none removed [] 0
      intro pr hpr
      obtain ⟨pp, hpp2, hppmem⟩ := hanchors pr hpr
      rcases tocAnchorsFrom_shape d toc none [] 0 pr hpr with ⟨j, _, h2⟩ | ⟨nm', pp', j, h1, h2, h3⟩
      · rw [h2] at hpp2
        exact absurd hpp2 (by simp)
      · rw [h1] at hpp2
        simp only [Option.some.injEq, Prod.mk.injEq] at hpp2
        obtain ⟨_, hpp'⟩ := hpp2
        subst hpp'
        exact ⟨pp', hppmem, h2 ▸ pp'.prefix_append [j], by simpa using h3⟩
  refine ⟨hmain, ?_⟩
  intro ⟨pr, hpr, hnotli⟩
  rcases hres : remove_html_toc_references d toc with _ | out
  · rfl
  · obtain ⟨hall, _⟩ := hmain out hres
    obtain ⟨pp, hpp⟩ := hall pr hpr
    exact absurd hpp (hnotli pp)

/-- Counterexample to C5 as stated: in `c5Doc` the TOC anchor *is* wrapped in
a list item (the root `li`), but because its direct parent is a `span` the code
raises (`none`) instead of removing the enclosing list item. -/
theorem toc_link_ancestor_counterexample :
    remove_html_toc_references c5Doc "zshguide.html" = none ∧
    tocAnchorsDoc "zshguide.html" c5Doc = [([0, 0, 0], some ("span", [0, 0]))] ∧
    nameOf (c5Doc.getD 0 (Node.text "")) = "li" :=
  ⟨rfl, rfl, rfl⟩

/-- Witness for the amended C5 on a concrete document whose TOC anchor sits
directly inside a list item. -/
theorem toc_link_requires_li_parent_witness :
    remove_html_toc_references c5GoodDoc "zshguide.html" =
      some [Node.elem "ul" [] [Node.elem "li" [] [Node.text "keep"]]] ∧
    ((∀ pr ∈ tocAnchorsDoc "zshguide.html" c5GoodDoc, ∃ pp, pr.2 = some ("li", pp)) ∧
      hasTocAnchorL "zshguide.html"
        [Node.elem "ul" [] [Node.elem "li" [] [Node.text "keep"]]] = false) :=
  ⟨by rfl, (toc_link_requires_li_parent c5GoodDoc "zshguide.html").1 _ (by rfl)⟩

/-! ## Claim C2: chapter order under archive permutation -/

/-- The scan loop, rephrased per member: it succeeds exactly when every member
processes cleanly, metadata is last-wins, and chapters are collected in member
order. -/
theorem scanMembers_eq (ms : List TarMember) :
    ∀ (md : Option Metadata) (acc : List Chapter),
      scanMembers md acc ms =
        if ms.all memberOk then some (metaFold md ms, acc ++ ms.filterMap chapterOf)
        else none := by
  induction ms with
  | nil => intro md acc; simp [scanMembers, metaFold]
  | cons m rest ih =>
    intro md acc
    have hmfstep : ∀ md' : Option Metadata, metaFold md' (m :: rest) =
        metaFold (match metaOf m with | some x => some x | none => md') rest := fun _ => rfl
    by_cases hreg : m.isreg
    · by_cases htoc : basename m.name == htmlTocFilename
      · rcases hmeta : metadata_from_html m.content with _ | md'
        · simp [scanMembers, memberOk, hreg, htoc, hmeta]
        · have hscan : scanMembers md acc (m :: rest) = scanMembers (some md') acc rest := by
            simp [scanMembers, hreg, htoc, hmeta]
          have hOk : memberOk m = true := by simp [memberOk, hreg, htoc, hmeta]
          have hCh : chapterOf m = none := by simp [chapterOf, hreg, htoc]
          have hMe : metaOf m = metadata_from_html m.content := by simp [metaOf, hreg, htoc]
          have hmf1 : metaFold md (m :: rest) = metaFold (some md') rest := by
            rw [hmfstep md, hMe, hmeta]
          have hfm1 : (m :: rest).filterMap chapterOf = rest.filterMap chapterOf := by
            rw [List.filterMap_cons, hCh]
          rw [hscan, ih (some md') acc, List.all_cons, hOk, Bool.true_and, hmf1, hfm1]
      · by_cases hch : isChapterFileName m.name
        · rcases hproc : processChapterMember m with _ | c
          · simp [scanMembers, memberOk, hreg, htoc, hch, hproc]
          · have hscan : scanMembers md acc (m :: rest) =
                scanMembers md (acc ++ [c]) rest := by
              simp [scanMembers, hreg, htoc, hch, hproc]
            have hOk : memberOk m = true := by simp [memberOk, hreg, htoc, hch, hproc]
            have hCh : chapterOf m = some c := by simp [chapterOf, hreg, htoc, hch, hproc]
            have hMe : metaOf m = none := by simp [metaOf, hreg, htoc]
            have hmf1 : metaFold md (m :: rest) = metaFold md rest := by
              rw [hmfstep md, hMe]
            have hfm1 : (m :: rest).filterMap chapterOf = c :: rest.filterMap chapterOf := by
              rw [List.filterMap_cons, hCh]
            rw [hscan, ih md (acc ++ [c]), List.all_cons, hOk, Bool.true_and, hmf1, hfm1]
            by_cases hall : rest.all memberOk = true
            · simp [hall]
            · simp [hall]
        · have hscan : scanMembers md acc (m :: rest) = scanMembers md acc rest := by
            simp [scanMembers, hreg, htoc, hch]
          have hOk : memberOk m = true := by simp [memberOk, hreg, htoc, hch]
          have hCh : chapterOf m = none := by simp [chapterOf, hreg, htoc, hch]
          have hMe : metaOf m = none := by simp [metaOf, hreg, htoc]
          have hmf1 : metaFold md (m :: rest) = metaFold md rest := by
            rw [hmfstep md, hMe]
          have hfm1 : (m :: rest).filterMap chapterOf = rest.filterMap chapterOf := by
            rw [List.filterMap_cons, hCh]
          rw [hscan, ih md acc, List.all_cons, hOk, Bool.true_and, hmf1, hfm1]
    · have hregf : m.isreg = false := by
        revert hreg; cases m.isreg <;> simp
      have hscan : scanMembers md acc (m :: rest) = scanMembers md acc rest := by
        simp [scanMembers, hregf]
      have hOk : memberOk m = true := by simp [memberOk, hregf]
      have hCh : chapterOf m = none := by simp [chapterOf, hregf]
      have hMe : metaOf m = none := by simp [metaOf, hregf]
      have hmf1 : metaFold md (m :: rest) = metaFold md rest := by
        rw [hmfstep md, hMe]
      have hfm1 : (m :: rest).filterMap chapterOf = rest.filterMap chapterOf := by
        rw [List.filterMap_cons, hCh]
      rw [hscan, ih md acc, List.all_cons, hOk, Bool.true_and, hmf1, hfm1]

theorem all_of_perm (f : TarMember → Bool) {ms ms' : List TarMember} (hp : ms.Perm ms') :
    ms.all f = ms'.all f := by
  cases ha : ms.all f with
  | true =>
    symm
    rw [List.all_eq_true] at ha ⊢
    exact fun x hx => ha x (hp.mem_iff.mpr hx)
  | false =>
    cases hb : ms'.all f with
    | true =>
      rw [List.all_eq_true] at hb
      have hcontra : ms.all f = true := List.all_eq_true.mpr (fun x hx => hb x (hp.mem_iff.mp hx))
      rw [ha] at hcontra
      exact absurd hcontra (by simp)
    | false => rfl

theorem metaFold_isSome (ms : List TarMember) :
    ∀ md : Option Metadata,
      (metaFold md ms).isSome = (md.isSome || ms.any (fun m => (metaOf m).isSome)) := by
  induction ms with
  | nil => intro md; simp [metaFold]
  | cons m rest ih =>
    intro md
    rcases hm : metaOf m with _ | x
    · simp only [metaFold, List.foldl_cons, hm, List.any_cons, Option.isSome_none,
        Bool.false_or]
      rw [show (rest.foldl (fun acc m => match metaOf m with | some x => some x | none => acc) md) = metaFold md rest from rfl, ih md]
    · simp only [metaFold, List.foldl_cons, hm, List.any_cons, Option.isSome_some,
        Bool.true_or]
      rw [show (rest.foldl (fun acc m => match metaOf m with | some x => some x | none => acc) (some x)) = metaFold (some x) rest from rfl, ih (some x)]
      simp

/-! Stable insertion sort facts. -/

theorem insertChapter_perm (c : Chapter) (l : List Chapter) :
    (insertChapter c l).Perm (c :: l) := by
  induction l with
  | nil => exact List.Perm.refl _
  | cons d ds ih =>
    unfold insertChapter
    split
    · exact (ih.cons d).trans (List.Perm.swap c d ds)
    · exact List.Perm.refl _

theorem sortChapters_perm (l : List Chapter) : (sortChapters l).Perm l := by
  have key : ∀ (l acc : List Chapter),
      (l.foldl (fun acc c => insertChapter c acc) acc).Perm (acc ++ l) := by
    intro l
    induction l with
    | nil => intro acc; simp
    | cons c t ih =>
      intro acc
      simp only [List.foldl_cons]
      refine (ih (insertChapter c acc)).trans ?_
      have h1 : (insertChapter c acc ++ t).Perm ((c :: acc) ++ t) :=
        (insertChapter_perm c acc).append_right t
      refine h1.trans ?_
      simp only [List.cons_append]
      exact List.perm_middle.symm
  simpa using key l []

theorem insertChapter_pairwise (c : Chapter) (l : List Chapter)
    (h : l.Pairwise (fun a b => a.number ≤ b.number)) :
    (insertChapter c l).Pairwise (fun a b => a.number ≤ b.number) := by
  induction l with
  | nil => simp [insertChapter]
  | cons d ds ih =>
    rw [List.pairwise_cons] at h
    obtain ⟨hd, hds⟩ := h
    unfold insertChapter
    split
    · rename_i hle
      rw [List.pairwise_cons]
      refine ⟨?_, ih hds⟩
      intro e he
      have := (insertChapter_perm c ds).mem_iff.mp he
      rcases List.mem_cons.mp this with rfl | hmem
      · exact hle
      · exact hd e hmem
    · rename_i hgt
      have hcd : c.number ≤ d.number := by omega
      rw [List.pairwise_cons]
      refine ⟨?_, List.pairwise_cons.mpr ⟨hd, hds⟩⟩
      intro e he
      rcases List.mem_cons.mp he with rfl | hmem
      · exact hcd
      · exact le_trans hcd (hd e hmem)

theorem sortChapters_pairwise (l : List Chapter) :
    (sortChapters l).Pairwise (fun a b => a.number ≤ b.number) := by
  have key : ∀ (l acc : List Chapter), acc.Pairwise (fun a b => a.number ≤ b.number) →
      (l.foldl (fun acc c => insertChapter c acc) acc).Pairwise
        (fun a b => a.number ≤ b.number) := by
    intro l
    induction l with
    | nil => intro acc h; simpa using h
    | cons c t ih =>
      intro acc h
      simp only [List.foldl_cons]
      exact ih _ (insertChapter_pairwise c acc h)
  exact key l [] (List.Pairwise.nil)

/-- Two sorted permutations of each other with pairwise-distinct sort keys are
equal. -/
theorem sorted_perm_nodup_eq :
    ∀ (l1 l2 : List Chapter), l1.Perm l2 →
      l1.Pairwise (fun a b => a.number ≤ b.number) →
      l2.Pairwise (fun a b => a.number ≤ b.number) →
      (l1.map (·.number)).Nodup → l1 = l2 := by
  intro l1
  induction l1 with
  | nil =>
    intro l2 hp _ _ _
    exact (hp.nil_eq).symm ▸ rfl
  | cons a t ih =>
    intro l2 hp h1 h2 hnd
    rcases l2 with _ | ⟨b, t2⟩
    · exact absurd hp.symm.nil_eq (by simp)
    have hab : a = b := by
      have hamem : a ∈ b :: t2 := hp.mem_iff.mp (List.mem_cons_self a t)
      rcases List.mem_cons.mp hamem with heq | hamem2
      · exact heq
      · have hbmem : b ∈ a :: t := hp.mem_iff.mpr (List.mem_cons_self b t2)
        rcases List.mem_cons.mp hbmem with heq | hbmem2
        · exact heq.symm
        · exfalso
          have hba : b.number ≤ a.number :=
            (List.pairwise_cons.mp h2).1 a hamem2
          have hab' : a.number ≤ b.number :=
            (List.pairwise_cons.mp h1).1 b hbmem2
          have heqnum : a.number = b.number := le_antisymm hab' hba
          have : a.number ∈ t.map (·.number) :=
            List.mem_map.mpr ⟨b, hbmem2, heqnum.symm⟩
          rw [List.map_cons, List.nodup_cons] at hnd
          exact hnd.1 this
    subst hab
    have ht : t.Perm t2 := hp.cons_inv
    have := ih t2 ht (List.pairwise_cons.mp h1).2 (List.pairwise_cons.mp h2).2
      (by rw [List.map_cons, List.nodup_cons] at hnd; exact hnd.2)
    rw [this]

/-- Claim C2 (amended): the chapter sequence of a produced book is always
sorted ascending by parsed chapter number, and — provided the parsed chapter
numbers are pairwise distinct — permuting the archive's member order does not
change the chapter sequence.  (With duplicate numbers the scan order shows
through the stable sort; see the counterexample.) -/
theorem chapters_sorted_and_perm_invariant (ms ms' : List TarMember) (bk bk' : Book) :
    (book_from_tar_archive ms = some bk →
      bk.chapters.Pairwise (fun a b => a.number ≤ b.number)) ∧
    (ms.Perm ms' → book_from_tar_archive ms = some bk →
      book_from_tar_archive ms' = some bk' →
      (bk.chapters.map (·.number)).Nodup → bk.chapters = bk'.chapters) := by
  have hbook : ∀ (ms : List TarMember) (bk : Book), book_from_tar_archive ms = some bk →
      ms.all memberOk = true ∧ bk.chapters = sortChapters (ms.filterMap chapterOf) := by
    intro ms bk h
    unfold book_from_tar_archive at h
    rw [scanMembers_eq ms none []] at h
    by_cases hall : ms.all memberOk = true
    · rw [if_pos hall] at h
      refine ⟨hall, ?_⟩
      rcases hmf : metaFold none ms with _ | md
      · rw [hmf] at h; simp at h
      · rw [hmf] at h
        simp only [List.nil_append] at h
        cases h
        rfl
    · rw [if_neg hall] at h
      simp at h
  constructor
  · intro h
    rw [(hbook ms bk h).2]
    exact sortChapters_pairwise _
  · intro hp h h' hnd
    obtain ⟨_, hch⟩ := hbook ms bk h
    obtain ⟨_, hch'⟩ := hbook ms' bk' h'
    rw [hch, hch']
    apply sorted_perm_nodup_eq
    · exact (sortChapters_perm _).trans ((hp.filterMap chapterOf).trans (sortChapters_perm _).symm)
    · exact sortChapters_pairwise _
    · exact sortChapters_pairwise _
    · rw [← hch]
      exact hnd

/-- Counterexample to C2 as stated: two members both parse to chapter number 1
(duplicate numbers); swapping them in the archive changes the resulting
chapter sequence, because the stable sort preserves scan order among equal
numbers. -/
theorem chapter_order_perm_counterexample :
    ([c2mToc, c2m1, c2m2] : List TarMember).Perm [c2mToc, c2m2, c2m1] ∧
    (book_from_tar_archive [c2mToc, c2m1, c2m2]).map (fun b => b.chapters.map (·.title)) =
      some ["T1", "T2"] ∧
    (book_from_tar_archive [c2mToc, c2m2, c2m1]).map (fun b => b.chapters.map (·.title)) =
      some ["T2", "T1"] ∧
    (["T1", "T2"] : List String) ≠ ["T2", "T1"] :=
  ⟨List.Perm.cons c2mToc (List.Perm.swap c2m2 c2m1 []), by rfl, by rfl, by decide⟩

/-- Witness for the amended C2 on archives with distinct chapter numbers. -/
theorem chapters_sorted_and_perm_invariant_witness :
    book_from_tar_archive [c2mToc, c2m1, c2w2] = some c2wBookA ∧
    book_from_tar_archive [c2mToc, c2w2, c2m1] = some c2wBookB ∧
    c2wBookA.chapters.Pairwise (fun a b => a.number ≤ b.number) ∧
    c2wBookA.chapters = c2wBookB.chapters :=
  ⟨by rfl, by rfl,
   (chapters_sorted_and_perm_invariant [c2mToc, c2m1, c2w2] [c2mToc, c2w2, c2m1]
     c2wBookA c2wBookB).1 (by rfl),
   (chapters_sorted_and_perm_invariant [c2mToc, c2m1, c2w2] [c2mToc, c2w2, c2m1]
     c2wBookA c2wBookB).2
     (List.Perm.cons c2mToc (List.Perm.swap c2w2 c2m1 []))
     (by rfl) (by rfl) (by decide)⟩

/-! ## Normalizer machinery: find-first modification on shaped documents -/

theorem modFirstNode_of_nonElem (nm : String)
    (f : List (String × String) → List Node → Option Node) (n : Node)
    (h : isElemNode n = false) : modFirstNode nm f n = none := by
  cases n with
  | text s => rfl
  | doctype a b c => rfl
  | elem name attrs kids => simp [isElemNode] at h

theorem modFirstL_cons_none (nm : String)
    (f : List (String × String) → List Node → Option Node) (n : Node) (rest : List Node)
    (h : modFirstNode nm f n = none) :
    modFirstL nm f (n :: rest) = (modFirstL nm f rest).map (n :: ·) := by
  unfold modFirstL
  simp only [modFirstNode.go, h]
  cases hr : modFirstNode.go nm f rest with
  | none => rfl
  | some o =>
    cases o with
    | none => rfl
    | some l' => rfl

theorem modFirstL_append_nonElem (nm : String)
    (f : List (String × String) → List Node → Option Node) (pre rest : List Node)
    (h : ∀ n ∈ pre, isElemNode n = false) :
    modFirstL nm f (pre ++ rest) = (modFirstL nm f rest).map (pre ++ ·) := by
  induction pre with
  | nil =>
    cases hr : modFirstL nm f rest <;> simp [hr]
  | cons a pre' ih =>
    have ha : isElemNode a = false := h a (List.mem_cons_self a pre')
    have h' : ∀ n ∈ pre', isElemNode n = false := fun n hn => h n (List.mem_cons_of_mem a hn)
    rw [List.cons_append, modFirstL_cons_none nm f a (pre' ++ rest)
      (modFirstNode_of_nonElem nm f a ha), ih h']
    cases hr : modFirstL nm f rest <;> simp [hr]

theorem modFirstL_cons_hit (nm : String)
    (f : List (String × String) → List Node → Option Node)
    (a : List (String × String)) (k rest : List Node) :
    modFirstL nm f (Node.elem nm a k :: rest) = (f a k).map (· :: rest) := by
  unfold modFirstL
  simp only [modFirstNode.go, modFirstNode, beq_self_eq_true, if_true]
  cases hf : f a k with
  | none => rfl
  | some n' => rfl

theorem modFirstGo_cons_none (nm : String)
    (f : List (String × String) → List Node → Option Node) (n : Node) (rest : List Node)
    (h : modFirstNode nm f n = none) :
    modFirstNode.go nm f (n :: rest) =
      (modFirstNode.go nm f rest).map (Option.map (n :: ·)) := by
  simp only [modFirstNode.go, h]
  cases hr : modFirstNode.go nm f rest with
  | none => rfl
  | some o =>
    cases o with
    | none => rfl
    | some l' => rfl

theorem modFirstGo_cons_hit (nm : String)
    (f : List (String × String) → List Node → Option Node)
    (a : List (String × String)) (k rest : List Node) :
    modFirstNode.go nm f (Node.elem nm a k :: rest) = some ((f a k).map (· :: rest)) := by
  simp only [modFirstNode.go, modFirstNode, beq_self_eq_true, if_true]
  cases hf : f a k with
  | none => rfl
  | some n' => rfl

theorem modFirstL_cons_descend (nm : String)
    (f : List (String × String) → List Node → Option Node) (name : String)
    (a : List (String × String)) (kids kids' rest : List Node)
    (hname : (name == nm) = false)
    (hgo : modFirstNode.go nm f kids = some (some kids')) :
    modFirstL nm f (Node.elem name a kids :: rest) =
      some (Node.elem name a kids' :: rest) := by
  unfold modFirstL
  simp only [modFirstNode.go, modFirstNode, hname, Bool.false_eq_true, if_false, hgo]

theorem modFirstGo_of_no_named (n : Node) :
    ∀ (nm : String) (f : List (String × String) → List Node → Option Node),
      hasElemNamedNode nm n = false → modFirstNode nm f n = none := by
  induction n using Node.rec
    (motive_2 := fun l => ∀ (nm : String)
      (f : List (String × String) → List Node → Option Node),
      hasElemNamedL nm l = false → modFirstNode.go nm f l = none) with
  | text s => intro nm f _; rfl
  | doctype a b c => intro nm f _; rfl
  | elem name attrs kids ih =>
    intro nm f h
    simp only [hasElemNamedNode, Bool.or_eq_false_iff] at h
    obtain ⟨hname, hkids⟩ := h
    rw [show hasElemNamedNode.go nm kids = hasElemNamedL nm kids from rfl] at hkids
    simp only [modFirstNode, hname, Bool.false_eq_true, if_false, ih nm f hkids]
  | nil => rename_i nm f h; rfl
  | cons n t ihn iht =>
    rename_i nm f h
    simp only [hasElemNamedL, hasElemNamedNode.go, Bool.or_eq_false_iff] at h
    obtain ⟨hn, ht⟩ := h
    rw [show hasElemNamedNode.go nm t = hasElemNamedL nm t from rfl] at ht
    simp only [modFirstNode.go, ihn nm f hn, iht nm f ht]

/-! ## Append and non-element lemmas for the observation functions -/

theorem hasElemNamedL_append (nm : String) (l1 l2 : List Node) :
    hasElemNamedL nm (l1 ++ l2) = (hasElemNamedL nm l1 || hasElemNamedL nm l2) := by
  induction l1 with
  | nil => simp [hasElemNamedL, hasElemNamedNode.go]
  | cons n t ih =>
    simp only [List.cons_append, List.append_eq, hasElemNamedL, hasElemNamedNode.go] at ih ⊢
    rw [ih, Bool.or_assoc]

theorem countDoctypeL_append (l1 l2 : List Node) :
    countDoctypeL (l1 ++ l2) = countDoctypeL l1 + countDoctypeL l2 := by
  induction l1 with
  | nil => simp [countDoctypeL, countDoctypeNode.go]
  | cons n t ih =>
    simp only [List.cons_append, List.append_eq, countDoctypeL, countDoctypeNode.go] at ih ⊢
    omega

theorem countCharsetL_append (l1 l2 : List Node) :
    countCharsetL (l1 ++ l2) = countCharsetL l1 + countCharsetL l2 := by
  induction l1 with
  | nil => simp [countCharsetL, countCharsetNode.go]
  | cons n t ih =>
    simp only [List.cons_append, List.append_eq, countCharsetL, countCharsetNode.go] at ih ⊢
    omega

theorem anchorAttrsL_append (l1 l2 : List Node) :
    anchorAttrsL (l1 ++ l2) = anchorAttrsL l1 ++ anchorAttrsL l2 := by
  induction l1 with
  | nil => simp [anchorAttrsL, anchorAttrsNode.go]
  | cons n t ih =>
    simp only [List.cons_append, List.append_eq, anchorAttrsL, anchorAttrsNode.go] at ih ⊢
    rw [ih, List.append_assoc]

theorem pAttrsL_append (l1 l2 : List Node) :
    pAttrsL (l1 ++ l2) = pAttrsL l1 ++ pAttrsL l2 := by
  induction l1 with
  | nil => simp [pAttrsL, pAttrsNode.go]
  | cons n t ih =>
    simp only [List.cons_append, List.append_eq, pAttrsL, pAttrsNode.go] at ih ⊢
    rw [ih, List.append_assoc]

theorem nonEmptyPAttrsL_append (l1 l2 : List Node) :
    nonEmptyPAttrsL (l1 ++ l2) = nonEmptyPAttrsL l1 ++ nonEmptyPAttrsL l2 := by
  induction l1 with
  | nil => simp [nonEmptyPAttrsL, nonEmptyPAttrsNode.go]
  | cons n t ih =>
    simp only [List.cons_append, List.append_eq, nonEmptyPAttrsL, nonEmptyPAttrsNode.go] at ih ⊢
    rw [ih, List.append_assoc]

theorem countDoctypeNode_nonElem (n : Node) (h : isElemNode n = false) :
    countDoctypeNode (clearDoctypeNode n) = 0 := by
  cases n with
  | text s => rfl
  | doctype a b c => rfl
  | elem name attrs kids => simp [isElemNode] at h

theorem countDoctypeL_clear_nonElem (pre : List Node)
    (h : ∀ n ∈ pre, isElemNode n = false) :
    countDoctypeL (pre.map clearDoctypeNode) = 0 := by
  induction pre with
  | nil => rfl
  | cons n t ih =>
    simp only [List.map_cons, countDoctypeL, countDoctypeNode.go]
    rw [countDoctypeNode_nonElem n (h n (List.mem_cons_self n t))]
    rw [Nat.zero_add]
    exact ih (fun x hx => h x (List.mem_cons_of_mem n hx))

theorem countCharsetNode_nonElem (n : Node) (h : isElemNode n = false) :
    countCharsetNode n = 0 := by
  cases n with
  | text s => rfl
  | doctype a b c => rfl
  | elem name attrs kids => simp [isElemNode] at h

theorem countCharsetL_nonElem (l : List Node) (h : ∀ n ∈ l, isElemNode n = false) :
    countCharsetL l = 0 := by
  induction l with
  | nil => rfl
  | cons n t ih =>
    simp only [countCharsetL, countCharsetNode.go]
    rw [countCharsetNode_nonElem n (h n (List.mem_cons_self n t))]
    rw [Nat.zero_add]
    exact ih (fun x hx => h x (List.mem_cons_of_mem n hx))

theorem anchorAttrsNode_nonElem (n : Node) (h : isElemNode n = false) :
    anchorAttrsNode n = [] := by
  cases n with
  | text s => rfl
  | doctype a b c => rfl
  | elem name attrs kids => simp [isElemNode] at h

theorem anchorAttrsL_nonElem (l : List Node) (h : ∀ n ∈ l, isElemNode n = false) :
    anchorAttrsL l = [] := by
  induction l with
  | nil => rfl
  | cons n t ih =>
    simp only [anchorAttrsL, anchorAttrsNode.go]
    rw [anchorAttrsNode_nonElem n (h n (List.mem_cons_self n t))]
    rw [List.nil_append]
    exact ih (fun x hx => h x (List.mem_cons_of_mem n hx))

theorem isEmptyKids_nonElem (kids : List Node) (h : isEmptyKids kids = true) :
    ∀ n ∈ kids, isElemNode n = false := by
  intro n hn
  have := List.all_eq_true.mp h n hn
  cases n with
  | text s => rfl
  | doctype a b c => rfl
  | elem name attrs k2 => simp at this

theorem clear_nonElem_of_nonElem (pre : List Node) (h : ∀ n ∈ pre, isElemNode n = false) :
    ∀ n ∈ pre.map clearDoctypeNode, isElemNode n = false := by
  intro n hn
  obtain ⟨m, hm, rfl⟩ := List.mem_map.mp hn
  have := h m hm
  cases m with
  | text s => exact this
  | doctype a b c => rfl
  | elem name attrs kids => simp [isElemNode] at this

theorem findElemNode_nonElem (nm : String) (n : Node) (h : isElemNode n = false) :
    findElemNode nm n = none := by
  cases n with
  | text s => rfl
  | doctype a b c => rfl
  | elem name attrs kids => simp [isElemNode] at h

theorem findElemL_append_nonElem (nm : String) (pre rest : List Node)
    (h : ∀ n ∈ pre, isElemNode n = false) :
    findElemL nm (pre ++ rest) = findElemL nm rest := by
  induction pre with
  | nil => rfl
  | cons n t ih =>
    simp only [List.cons_append, findElemL, findElemNode.go]
    rw [findElemNode_nonElem nm n (h n (List.mem_cons_self n t))]
    exact ih (fun x hx => h x (List.mem_cons_of_mem n hx))

theorem findElemL_cons_hit (nm : String) (a : List (String × String)) (k : List Node)
    (rest : List Node) :
    findElemL nm (Node.elem nm a k :: rest) = some (Node.elem nm a k) := by
  simp [findElemL, findElemNode.go, findElemNode]

/-! ## Name-freeness preservation through the normalizer stages -/

theorem hasElemNamed_removeCharset (n : Node) :
    ∀ nm : String, hasElemNamedNode nm n = false →
      hasElemNamedNode nm (removeCharsetNode n) = false := by
  induction n using Node.rec (motive_2 := fun l => ∀ nm : String,
      hasElemNamedL nm l = false → hasElemNamedL nm (removeCharsetL l) = false) with
  | text s => intro nm h; exact h
  | doctype a b c => intro nm h; exact h
  | elem name attrs kids ih =>
    intro nm h
    simp only [hasElemNamedNode, Bool.or_eq_false_iff] at h
    obtain ⟨h1, h2⟩ := h
    rw [show hasElemNamedNode.go nm kids = hasElemNamedL nm kids from rfl] at h2
    show hasElemNamedNode nm (Node.elem name attrs (removeCharsetL kids)) = false
    simp only [hasElemNamedNode, Bool.or_eq_false_iff]
    exact ⟨h1, ih nm h2⟩
  | nil => rename_i nm h; exact h
  | cons n t ihn iht =>
    rename_i nm h
    simp only [hasElemNamedL, hasElemNamedNode.go, Bool.or_eq_false_iff] at h
    obtain ⟨hn, ht⟩ := h
    rw [show hasElemNamedNode.go nm t = hasElemNamedL nm t from rfl] at ht
    show hasElemNamedL nm (removeCharsetNode.go (n :: t)) = false
    cases n with
    | text s =>
      simp only [removeCharsetNode.go, hasElemNamedL, hasElemNamedNode.go,
        hasElemNamedNode, Bool.false_or]
      exact iht nm ht
    | doctype a b c =>
      simp only [removeCharsetNode.go, hasElemNamedL, hasElemNamedNode.go,
        hasElemNamedNode, Bool.false_or]
      exact iht nm ht
    | elem name2 attrs2 kids2 =>
      simp only [removeCharsetNode.go]
      by_cases hm : isCharsetMeta name2 attrs2 = true
      · rw [if_pos hm]
        exact iht nm ht
      · rw [if_neg hm]
        simp only [hasElemNamedL, hasElemNamedNode.go, Bool.or_eq_false_iff]
        exact ⟨ihn nm hn, iht nm ht⟩

theorem hasElemNamed_remP (n : Node) :
    ∀ nm : String, hasElemNamedNode nm n = false →
      hasElemNamedNode nm (remove_empty_paragraphs_node n) = false := by
  induction n using Node.rec (motive_2 := fun l => ∀ nm : String,
      hasElemNamedL nm l = false →
      hasElemNamedL nm (remove_empty_paragraphs l) = false) with
  | text s => intro nm h; exact h
  | doctype a b c => intro nm h; exact h
  | elem name attrs kids ih =>
    intro nm h
    simp only [hasElemNamedNode, Bool.or_eq_false_iff] at h
    obtain ⟨h1, h2⟩ := h
    rw [show hasElemNamedNode.go nm kids = hasElemNamedL nm kids from rfl] at h2
    show hasElemNamedNode nm (Node.elem name attrs (remove_empty_paragraphs kids)) = false
    simp only [hasElemNamedNode, Bool.or_eq_false_iff]
    exact ⟨h1, ih nm h2⟩
  | nil => rename_i nm h; exact h
  | cons n t ihn iht =>
    rename_i nm h
    simp only [hasElemNamedL, hasElemNamedNode.go, Bool.or_eq_false_iff] at h
    obtain ⟨hn, ht⟩ := h
    rw [show hasElemNamedNode.go nm t = hasElemNamedL nm t from rfl] at ht
    show hasElemNamedL nm (remove_empty_paragraphs_node.go (n :: t)) = false
    cases n with
    | text s =>
      simp only [remove_empty_paragraphs_node.go, hasElemNamedL, hasElemNamedNode.go,
        hasElemNamedNode, Bool.false_or]
      exact iht nm ht
    | doctype a b c =>
      simp only [remove_empty_paragraphs_node.go, hasElemNamedL, hasElemNamedNode.go,
        hasElemNamedNode, Bool.false_or]
      exact iht nm ht
    | elem name2 attrs2 kids2 =>
      simp only [remove_empty_paragraphs_node.go]
      by_cases hm : (name2 == "p" && isEmptyKids kids2) = true
      · rw [if_pos hm]
        exact iht nm ht
      · rw [if_neg hm]
        simp only [hasElemNamedL, hasElemNamedNode.go, Bool.or_eq_false_iff]
        exact ⟨ihn nm hn, iht nm ht⟩

theorem hasElemNamed_convert (n : Node) :
    ∀ nm : String, hasElemNamedNode nm (convertNameToIdNode n) = hasElemNamedNode nm n := by
  induction n using Node.rec (motive_2 := fun l => ∀ nm : String,
      hasElemNamedL nm (convertNameToIdL l) = hasElemNamedL nm l) with
  | text s => intro nm; rfl
  | doctype a b c => intro nm; rfl
  | elem name attrs kids ih =>
    intro nm
    show hasElemNamedNode nm (Node.elem name
      (if name == "a" then convertAnchorAttrs attrs else attrs) (convertNameToIdL kids)) = _
    simp only [hasElemNamedNode]
    rw [show hasElemNamedNode.go nm (convertNameToIdL kids) =
      hasElemNamedL nm (convertNameToIdL kids) from rfl,
      show hasElemNamedNode.go nm kids = hasElemNamedL nm kids from rfl, ih nm]
  | nil => rename_i nm; rfl
  | cons n t ihn iht =>
    rename_i nm
    show hasElemNamedL nm (convertNameToIdNode n :: convertNameToIdL t) = _
    simp only [hasElemNamedL, hasElemNamedNode.go]
    rw [show hasElemNamedNode.go nm (convertNameToIdL t) =
      hasElemNamedL nm (convertNameToIdL t) from rfl,
      show hasElemNamedNode.go nm t = hasElemNamedL nm t from rfl, ihn nm, iht nm]

/-! ## Doctype-count behavior of the normalizer stages -/

theorem countDoctype_removeCharset_le (n : Node) :
    countDoctypeNode (removeCharsetNode n) ≤ countDoctypeNode n := by
  induction n using Node.rec
    (motive_2 := fun l => countDoctypeL (removeCharsetL l) ≤ countDoctypeL l) with
  | text s => exact le_refl _
  | doctype a b c => exact le_refl _
  | elem name attrs kids ih =>
    show countDoctypeNode (Node.elem name attrs (removeCharsetL kids)) ≤ _
    simpa only [countDoctypeNode] using ih
  | nil => exact le_refl _
  | cons n t ihn iht =>
    show countDoctypeL (removeCharsetNode.go (n :: t)) ≤ _
    have hgo : countDoctypeL (removeCharsetNode.go t) = countDoctypeL (removeCharsetL t) := rfl
    cases n with
    | text s =>
      simp only [removeCharsetNode.go, countDoctypeL, countDoctypeNode.go,
        countDoctypeNode] at iht hgo ⊢
      omega
    | doctype a b c =>
      simp only [removeCharsetNode.go, countDoctypeL, countDoctypeNode.go,
        countDoctypeNode] at iht hgo ⊢
      omega
    | elem name2 attrs2 kids2 =>
      simp only [removeCharsetNode.go]
      by_cases hm : isCharsetMeta name2 attrs2 = true
      · rw [if_pos hm]
        simp only [countDoctypeL, countDoctypeNode.go] at iht hgo ⊢
        omega
      · rw [if_neg hm]
        simp only [countDoctypeL, countDoctypeNode.go] at ihn iht hgo ⊢
        omega

theorem countDoctype_remP_le (n : Node) :
    countDoctypeNode (remove_empty_paragraphs_node n) ≤ countDoctypeNode n := by
  induction n using Node.rec
    (motive_2 := fun l => countDoctypeL (remove_empty_paragraphs l) ≤ countDoctypeL l) with
  | text s => exact le_refl _
  | doctype a b c => exact le_refl _
  | elem name attrs kids ih =>
    show countDoctypeNode (Node.elem name attrs (remove_empty_paragraphs kids)) ≤ _
    simpa only [countDoctypeNode] using ih
  | nil => exact le_refl _
  | cons n t ihn iht =>
    show countDoctypeL (remove_empty_paragraphs_node.go (n :: t)) ≤ _
    have hgo : countDoctypeL (remove_empty_paragraphs_node.go t) =
        countDoctypeL (remove_empty_paragraphs t) := rfl
    cases n with
    | text s =>
      simp only [remove_empty_paragraphs_node.go, countDoctypeL, countDoctypeNode.go,
        countDoctypeNode] at iht hgo ⊢
      omega
    | doctype a b c =>
      simp only [remove_empty_paragraphs_node.go, countDoctypeL, countDoctypeNode.go,
        countDoctypeNode] at iht hgo ⊢
      omega
    | elem name2 attrs2 kids2 =>
      simp only [remove_empty_paragraphs_node.go]
      by_cases hm : (name2 == "p" && isEmptyKids kids2) = true
      · rw [if_pos hm]
        simp only [countDoctypeL, countDoctypeNode.go] at iht hgo ⊢
        omega
      · rw [if_neg hm]
        simp only [countDoctypeL, countDoctypeNode.go] at ihn iht hgo ⊢
        omega

theorem countDoctype_convert (n : Node) :
    countDoctypeNode (convertNameToIdNode n) = countDoctypeNode n := by
  induction n using Node.rec
    (motive_2 := fun l => countDoctypeL (convertNameToIdL l) = countDoctypeL l) with
  | text s => rfl
  | doctype a b c => rfl
  | elem name attrs kids ih =>
    show countDoctypeNode (Node.elem name
      (if name == "a" then convertAnchorAttrs attrs else attrs) (convertNameToIdL kids)) = _
    simpa only [countDoctypeNode] using ih
  | nil => rfl
  | cons n t ihn iht =>
    show countDoctypeL (convertNameToIdNode n :: convertNameToIdL t) = _
    simp only [countDoctypeL, countDoctypeNode.go] at iht ⊢
    omega

/-! ## Charset-count behavior of the normalizer stages -/

theorem countCharset_removeCharset (n : Node) :
    countCharsetNode (removeCharsetNode n) = (if isCharsetMetaNode n then 1 else 0) := by
  induction n using Node.rec
    (motive_2 := fun l => countCharsetL (removeCharsetL l) = 0) with
  | text s => rfl
  | doctype a b c => rfl
  | elem name attrs kids ih =>
    show countCharsetNode (Node.elem name attrs (removeCharsetL kids)) = _
    simp only [countCharsetNode, isCharsetMetaNode]
    rw [show countCharsetNode.go (removeCharsetL kids) = countCharsetL (removeCharsetL kids)
      from rfl, ih]
    omega
  | nil => rfl
  | cons n t ihn iht =>
    show countCharsetL (removeCharsetNode.go (n :: t)) = 0
    cases n with
    | text s =>
      simp only [removeCharsetNode.go, countCharsetL, countCharsetNode.go, countCharsetNode]
      simpa using iht
    | doctype a b c =>
      simp only [removeCharsetNode.go, countCharsetL, countCharsetNode.go, countCharsetNode]
      simpa using iht
    | elem name2 attrs2 kids2 =>
      simp only [removeCharsetNode.go]
      by_cases hm : isCharsetMeta name2 attrs2 = true
      · rw [if_pos hm]
        exact iht
      · rw [if_neg hm]
        simp only [countCharsetL, countCharsetNode.go]
        rw [show countCharsetNode.go (removeCharsetNode.go t) =
          countCharsetL (removeCharsetL t) from rfl, iht, ihn]
        simp [isCharsetMetaNode, hm]

theorem countCharset_remP (n : Node) :
    countCharsetNode (remove_empty_paragraphs_node n) = countCharsetNode n := by
  induction n using Node.rec
    (motive_2 := fun l => countCharsetL (remove_empty_paragraphs l) = countCharsetL l) with
  | text s => rfl
  | doctype a b c => rfl
  | elem name attrs kids ih =>
    show countCharsetNode (Node.elem name attrs (remove_empty_paragraphs kids)) = _
    simp only [countCharsetNode]
    rw [show countCharsetNode.go (remove_empty_paragraphs kids) =
      countCharsetL (remove_empty_paragraphs kids) from rfl,
      show countCharsetNode.go kids = countCharsetL kids from rfl, ih]
  | nil => rfl
  | cons n t ihn iht =>
    show countCharsetL (remove_empty_paragraphs_node.go (n :: t)) = _
    have hgo : countCharsetL (remove_empty_paragraphs_node.go t) =
        countCharsetL (remove_empty_paragraphs t) := rfl
    cases n with
    | text s =>
      simp only [remove_empty_paragraphs_node.go, countCharsetL, countCharsetNode.go,
        countCharsetNode]
      simpa using iht
    | doctype a b c =>
      simp only [remove_empty_paragraphs_node.go, countCharsetL, countCharsetNode.go,
        countCharsetNode]
      simpa using iht
    | elem name2 attrs2 kids2 =>
      simp only [remove_empty_paragraphs_node.go]
      by_cases hm : (name2 == "p" && isEmptyKids kids2) = true
      · rw [if_pos hm]
        have hm2 := hm
        rw [Bool.and_eq_true] at hm2
        have hp : (name2 == "p") = true := hm2.1
        have hek : isEmptyKids kids2 = true := hm2.2
        have hname2 : name2 = "p" := by simpa using hp
        have hc0 : countCharsetL kids2 = 0 :=
          countCharsetL_nonElem kids2 (isEmptyKids_nonElem kids2 hek)
        have hcm : isCharsetMeta name2 attrs2 = false := by
          subst hname2
          simp [isCharsetMeta]
        simp only [countCharsetL, countCharsetNode.go, countCharsetNode, hcm,
          Bool.false_eq_true, if_false] at hgo iht ⊢
        rw [show countCharsetNode.go kids2 = countCharsetL kids2 from rfl, hc0]
        omega
      · rw [if_neg hm]
        simp only [countCharsetL, countCharsetNode.go] at ihn iht hgo ⊢
        omega

theorem countCharset_convert (n : Node) :
    countCharsetNode (convertNameToIdNode n) = countCharsetNode n := by
  induction n using Node.rec
    (motive_2 := fun l => countCharsetL (convertNameToIdL l) = countCharsetL l) with
  | text s => rfl
  | doctype a b c => rfl
  | elem name attrs kids ih =>
    show countCharsetNode (Node.elem name
      (if name == "a" then convertAnchorAttrs attrs else attrs) (convertNameToIdL kids)) = _
    simp only [countCharsetNode]
    rw [show countCharsetNode.go (convertNameToIdL kids) =
      countCharsetL (convertNameToIdL kids) from rfl,
      show countCharsetNode.go kids = countCharsetL kids from rfl, ih]
    by_cases hb : (name == "a") = true
    · have hname : name = "a" := by simpa using hb
      subst hname
      simp [isCharsetMeta]
    · simp only [hb, Bool.false_eq_true, if_false]
  | nil => rfl
  | cons n t ihn iht =>
    show countCharsetL (convertNameToIdNode n :: convertNameToIdL t) = _
    simp only [countCharsetL, countCharsetNode.go] at iht ⊢
    omega

/-! ## Anchor-collection behavior of the normalizer stages -/

theorem nonEmptyPAttrsNode_nonElem (n : Node) (h : isElemNode n = false) :
    nonEmptyPAttrsNode n = [] := by
  cases n with
  | text s => rfl
  | doctype a b c => rfl
  | elem name attrs kids => simp [isElemNode] at h

theorem nonEmptyPAttrsL_nonElem (l : List Node) (h : ∀ n ∈ l, isElemNode n = false) :
    nonEmptyPAttrsL l = [] := by
  induction l with
  | nil => rfl
  | cons n t ih =>
    simp only [nonEmptyPAttrsL, nonEmptyPAttrsNode.go]
    rw [nonEmptyPAttrsNode_nonElem n (h n (List.mem_cons_self n t)), List.nil_append]
    exact ih (fun x hx => h x (List.mem_cons_of_mem n hx))

theorem anchorAttrs_removeCharset (n : Node) :
    csMetasEmptyNode n = true →
      anchorAttrsNode (removeCharsetNode n) = anchorAttrsNode n := by
  induction n using Node.rec (motive_2 := fun l =>
      csMetasEmptyL l = true → anchorAttrsL (removeCharsetL l) = anchorAttrsL l) with
  | text s => intro h; rfl
  | doctype a b c => intro h; rfl
  | elem name attrs kids ih =>
    intro h
    simp only [csMetasEmptyNode, Bool.and_eq_true] at h
    have hkid : csMetasEmptyL kids = true := h.2
    show anchorAttrsNode (Node.elem name attrs (removeCharsetL kids)) = _
    simp only [anchorAttrsNode]
    have hmot : anchorAttrsNode.go (removeCharsetL kids) = anchorAttrsNode.go kids :=
      ih hkid
    rw [hmot]
  | nil => rfl
  | cons n t ihn iht =>
    rename_i h
    simp only [csMetasEmptyL, csMetasEmptyNode.go, Bool.and_eq_true] at h
    obtain ⟨hn, ht'⟩ := h
    have ht : csMetasEmptyL t = true := ht'
    show anchorAttrsL (removeCharsetNode.go (n :: t)) = _
    have hiht : anchorAttrsL (removeCharsetNode.go t) = anchorAttrsL t := iht ht
    cases n with
    | text s =>
      simp only [removeCharsetNode.go]
      show anchorAttrsL (Node.text s :: removeCharsetNode.go t) = _
      simp only [anchorAttrsL, anchorAttrsNode.go, anchorAttrsNode, List.nil_append] at hiht ⊢
      exact hiht
    | doctype a b c =>
      simp only [removeCharsetNode.go]
      show anchorAttrsL (Node.doctype a b c :: removeCharsetNode.go t) = _
      simp only [anchorAttrsL, anchorAttrsNode.go, anchorAttrsNode, List.nil_append] at hiht ⊢
      exact hiht
    | elem name2 attrs2 kids2 =>
      simp only [removeCharsetNode.go]
      by_cases hm : isCharsetMeta name2 attrs2 = true
      · rw [if_pos hm]
        have hmeta : name2 = "meta" := by
          have hb : (name2 == "meta") = true := by
            unfold isCharsetMeta at hm
            rw [Bool.and_eq_true] at hm
            exact hm.1
          simpa using hb
        have hkids2 : kids2 = [] := by
          simp only [csMetasEmptyNode, hm, Bool.not_true, Bool.false_or,
            Bool.and_eq_true] at hn
          exact List.isEmpty_iff.mp hn.1
        subst hkids2
        subst hmeta
        rw [hiht]
        simp [anchorAttrsL, anchorAttrsNode.go, anchorAttrsNode]
      · rw [if_neg hm]
        show anchorAttrsL (removeCharsetNode (Node.elem name2 attrs2 kids2) ::
          removeCharsetNode.go t) = _
        have hnode : anchorAttrsNode (removeCharsetNode (Node.elem name2 attrs2 kids2)) =
            anchorAttrsNode (Node.elem name2 attrs2 kids2) := by
          apply ihn
          simp only [csMetasEmptyNode, Bool.and_eq_true] at hn ⊢
          exact ⟨by simp [hm], hn.2⟩
        simp only [anchorAttrsL, anchorAttrsNode.go] at hiht ⊢
        rw [hnode, hiht]

theorem anchorAttrs_remP (n : Node) :
    anchorAttrsNode (remove_empty_paragraphs_node n) = anchorAttrsNode n := by
  induction n using Node.rec (motive_2 := fun l =>
      anchorAttrsL (remove_empty_paragraphs l) = anchorAttrsL l) with
  | text s => rfl
  | doctype a b c => rfl
  | elem name attrs kids ih =>
    show anchorAttrsNode (Node.elem name attrs (remove_empty_paragraphs kids)) = _
    simp only [anchorAttrsNode]
    have hmot : anchorAttrsNode.go (remove_empty_paragraphs kids) = anchorAttrsNode.go kids :=
      ih
    rw [hmot]
  | nil => rfl
  | cons n t ihn iht =>
    show anchorAttrsL (remove_empty_paragraphs_node.go (n :: t)) = _
    have hiht : anchorAttrsL (remove_empty_paragraphs_node.go t) = anchorAttrsL t := iht
    cases n with
    | text s =>
      simp only [remove_empty_paragraphs_node.go]
      show anchorAttrsL (Node.text s :: remove_empty_paragraphs_node.go t) = _
      simp only [anchorAttrsL, anchorAttrsNode.go, anchorAttrsNode, List.nil_append] at hiht ⊢
      exact hiht
    | doctype a b c =>
      simp only [remove_empty_paragraphs_node.go]
      show anchorAttrsL (Node.doctype a b c :: remove_empty_paragraphs_node.go t) = _
      simp only [anchorAttrsL, anchorAttrsNode.go, anchorAttrsNode, List.nil_append] at hiht ⊢
      exact hiht
    | elem name2 attrs2 kids2 =>
      simp only [remove_empty_paragraphs_node.go]
      by_cases hm : (name2 == "p" && isEmptyKids kids2) = true
      · rw [if_pos hm]
        have hm2 := hm
        rw [Bool.and_eq_true] at hm2
        have hname2 : name2 = "p" := by simpa using hm2.1
        have hanch : anchorAttrsNode (Node.elem name2 attrs2 kids2) = [] := by
          subst hname2
          simp only [anchorAttrsNode]
          have hkid0 : anchorAttrsNode.go kids2 = ([] : List (List (String × String))) :=
            anchorAttrsL_nonElem kids2 (isEmptyKids_nonElem kids2 hm2.2)
          rw [hkid0]
          simp
        rw [hiht]
        simp only [anchorAttrsL, anchorAttrsNode.go]
        rw [hanch, List.nil_append]
      · rw [if_neg hm]
        show anchorAttrsL (remove_empty_paragraphs_node (Node.elem name2 attrs2 kids2) ::
          remove_empty_paragraphs_node.go t) = _
        simp only [anchorAttrsL, anchorAttrsNode.go] at hiht ⊢
        rw [ihn, hiht]

theorem anchorAttrs_convert (n : Node) :
    anchorAttrsNode (convertNameToIdNode n) = (anchorAttrsNode n).map convertAnchorAttrs := by
  induction n using Node.rec (motive_2 := fun l =>
      anchorAttrsL (convertNameToIdL l) = (anchorAttrsL l).map convertAnchorAttrs) with
  | text s => rfl
  | doctype a b c => rfl
  | elem name attrs kids ih =>
    show anchorAttrsNode (Node.elem name
      (if name == "a" then convertAnchorAttrs attrs else attrs) (convertNameToIdL kids)) = _
    simp only [anchorAttrsNode, List.map_append]
    rw [show anchorAttrsNode.go (convertNameToIdL kids) =
      anchorAttrsL (convertNameToIdL kids) from rfl,
      show anchorAttrsNode.go kids = anchorAttrsL kids from rfl, ih]
    by_cases hb : (name == "a") = true
    · simp [hb]
    · simp [hb]
  | nil => rfl
  | cons n t ihn iht =>
    show anchorAttrsL (convertNameToIdNode n :: convertNameToIdL t) = _
    simp only [anchorAttrsL, anchorAttrsNode.go, List.map_append] at iht ⊢
    rw [show anchorAttrsNode.go (convertNameToIdL t) =
      anchorAttrsL (convertNameToIdL t) from rfl] at iht ⊢
    rw [iht, ihn]

/-! ## Paragraph-collection behavior of the normalizer stages -/

theorem pAttrs_remP (n : Node) :
    pAttrsNode (remove_empty_paragraphs_node n) =
      (if nameOf n == "p" then [attrsOf n] else []) ++ nonEmptyPAttrsL (childrenOf n) := by
  induction n using Node.rec (motive_2 := fun l =>
      pAttrsL (remove_empty_paragraphs l) = nonEmptyPAttrsL l) with
  | text s => rfl
  | doctype a b c => rfl
  | elem name attrs kids ih =>
    show pAttrsNode (Node.elem name attrs (remove_empty_paragraphs kids)) = _
    simp only [pAttrsNode, nameOf, attrsOf, childrenOf]
    have hmot : pAttrsNode.go (remove_empty_paragraphs kids) = nonEmptyPAttrsL kids := ih
    rw [hmot]
  | nil => rfl
  | cons n t ihn iht =>
    show pAttrsL (remove_empty_paragraphs_node.go (n :: t)) = _
    have hiht : pAttrsL (remove_empty_paragraphs_node.go t) = nonEmptyPAttrsL t := iht
    cases n with
    | text s =>
      simp only [remove_empty_paragraphs_node.go]
      show pAttrsL (Node.text s :: remove_empty_paragraphs_node.go t) = _
      simp only [pAttrsL, pAttrsNode.go, pAttrsNode, nonEmptyPAttrsL, nonEmptyPAttrsNode.go,
        nonEmptyPAttrsNode, List.nil_append] at hiht ⊢
      exact hiht
    | doctype a b c =>
      simp only [remove_empty_paragraphs_node.go]
      show pAttrsL (Node.doctype a b c :: remove_empty_paragraphs_node.go t) = _
      simp only [pAttrsL, pAttrsNode.go, pAttrsNode, nonEmptyPAttrsL, nonEmptyPAttrsNode.go,
        nonEmptyPAttrsNode, List.nil_append] at hiht ⊢
      exact hiht
    | elem name2 attrs2 kids2 =>
      simp only [remove_empty_paragraphs_node.go]
      by_cases hm : (name2 == "p" && isEmptyKids kids2) = true
      · rw [if_pos hm]
        have hm2 := hm
        rw [Bool.and_eq_true] at hm2
        have hne : nonEmptyPAttrsNode (Node.elem name2 attrs2 kids2) = [] := by
          simp only [nonEmptyPAttrsNode, hm2.1, hm2.2, Bool.not_true, Bool.and_false,
            Bool.false_eq_true, if_false, List.nil_append]
          exact nonEmptyPAttrsL_nonElem kids2 (isEmptyKids_nonElem kids2 hm2.2)
        rw [hiht]
        show nonEmptyPAttrsL t = nonEmptyPAttrsL (Node.elem name2 attrs2 kids2 :: t)
        simp only [nonEmptyPAttrsL, nonEmptyPAttrsNode.go]
        rw [hne, List.nil_append]
      · rw [if_neg hm]
        show pAttrsL (remove_empty_paragraphs_node (Node.elem name2 attrs2 kids2) ::
          remove_empty_paragraphs_node.go t) = _
        have hp2 : pAttrsL (remove_empty_paragraphs_node (Node.elem name2 attrs2 kids2) ::
            remove_empty_paragraphs_node.go t) =
            pAttrsNode (remove_empty_paragraphs_node (Node.elem name2 attrs2 kids2)) ++
              pAttrsL (remove_empty_paragraphs_node.go t) := rfl
        rw [hp2, ihn, hiht]
        show _ = nonEmptyPAttrsNode (Node.elem name2 attrs2 kids2) ++ nonEmptyPAttrsL t
        simp only [nameOf, attrsOf, childrenOf, nonEmptyPAttrsNode]
        by_cases hp : (name2 == "p") = true
        · have hek : isEmptyKids kids2 = false := by
            revert hm
            cases hx : isEmptyKids kids2 <;> simp [hp, hx]
          have hgo : nonEmptyPAttrsNode.go kids2 = nonEmptyPAttrsL kids2 := rfl
          rw [hgo]
          simp [hp, hek, List.append_assoc]
        · have hgo : nonEmptyPAttrsNode.go kids2 = nonEmptyPAttrsL kids2 := rfl
          rw [hgo]
          simp [hp]

theorem pAttrs_convert (n : Node) :
    pAttrsNode (convertNameToIdNode n) = pAttrsNode n := by
  induction n using Node.rec (motive_2 := fun l =>
      pAttrsL (convertNameToIdL l) = pAttrsL l) with
  | text s => rfl
  | doctype a b c => rfl
  | elem name attrs kids ih =>
    show pAttrsNode (Node.elem name
      (if name == "a" then convertAnchorAttrs attrs else attrs) (convertNameToIdL kids)) = _
    simp only [pAttrsNode]
    rw [show pAttrsNode.go (convertNameToIdL kids) = pAttrsL (convertNameToIdL kids) from rfl,
      show pAttrsNode.go kids = pAttrsL kids from rfl, ih]
    by_cases hb : (name == "a") = true
    · have hname : name = "a" := by simpa using hb
      subst hname
      simp
    · simp [hb]
  | nil => rfl
  | cons n t ihn iht =>
    show pAttrsL (convertNameToIdNode n :: convertNameToIdL t) = _
    simp only [pAttrsL, pAttrsNode.go] at iht ⊢
    rw [show pAttrsNode.go (convertNameToIdL t) = pAttrsL (convertNameToIdL t) from rfl] at iht ⊢
    rw [iht, ihn]

theorem pAttrs_of_pFree (n : Node) :
    ∀ _ : hasElemNamedNode "p" n = false, pAttrsNode n = [] := by
  induction n using Node.rec (motive_2 := fun l =>
      ∀ _ : hasElemNamedL "p" l = false, pAttrsL l = []) with
  | text s => intro h; rfl
  | doctype a b c => intro h; rfl
  | elem name attrs kids ih =>
    intro h
    simp only [hasElemNamedNode, Bool.or_eq_false_iff] at h
    rw [show hasElemNamedNode.go "p" kids = hasElemNamedL "p" kids from rfl] at h
    simp only [pAttrsNode, h.1, Bool.false_eq_true, if_false, List.nil_append]
    rw [show pAttrsNode.go kids = pAttrsL kids from rfl, ih h.2]
  | nil => rename_i h; rfl
  | cons n t ihn iht =>
    rename_i h
    simp only [hasElemNamedL, hasElemNamedNode.go, Bool.or_eq_false_iff] at h
    rw [show hasElemNamedNode.go "p" t = hasElemNamedL "p" t from rfl] at h
    simp only [pAttrsL, pAttrsNode.go]
    rw [show pAttrsNode.go t = pAttrsL t from rfl, ihn h.1, iht h.2, List.nil_append]

theorem nonEmptyPAttrs_of_pFree (n : Node) :
    ∀ _ : hasElemNamedNode "p" n = false, nonEmptyPAttrsNode n = [] := by
  induction n using Node.rec (motive_2 := fun l =>
      ∀ _ : hasElemNamedL "p" l = false, nonEmptyPAttrsL l = []) with
  | text s => intro h; rfl
  | doctype a b c => intro h; rfl
  | elem name attrs kids ih =>
    intro h
    simp only [hasElemNamedNode, Bool.or_eq_false_iff] at h
    rw [show hasElemNamedNode.go "p" kids = hasElemNamedL "p" kids from rfl] at h
    simp only [nonEmptyPAttrsNode, h.1, Bool.false_eq_true, Bool.false_and, if_false,
      List.nil_append]
    rw [show nonEmptyPAttrsNode.go kids = nonEmptyPAttrsL kids from rfl, ih h.2]
  | nil => rename_i h; rfl
  | cons n t ihn iht =>
    rename_i h
    simp only [hasElemNamedL, hasElemNamedNode.go, Bool.or_eq_false_iff] at h
    rw [show hasElemNamedNode.go "p" t = hasElemNamedL "p" t from rfl] at h
    simp only [nonEmptyPAttrsL, nonEmptyPAttrsNode.go]
    rw [show nonEmptyPAttrsNode.go t = nonEmptyPAttrsL t from rfl, ihn h.1, iht h.2,
      List.nil_append]

/-! ## Attribute-dictionary lemmas -/

theorem getAttr_setAttr_self (as : List (String × String)) (k v : String) :
    getAttr (setAttr as k v) k = some v := by
  unfold getAttr setAttr
  induction as with
  | nil => simp
  | cons p t ih =>
    simp only [List.filter_cons]
    by_cases hp : (p.1 != k) = true
    · rw [if_pos hp]
      have hpk : (p.1 == k) = false := by
        revert hp
        cases hx : p.1 == k <;> simp [bne, hx]
      simp only [List.cons_append, List.find?_cons, hpk]
      exact ih
    · rw [if_neg hp]
      exact ih

theorem getAttr_delAttr_ne (as : List (String × String)) (k k' : String)
    (h : (k == k') = false) : getAttr (delAttr as k') k = getAttr as k := by
  unfold getAttr delAttr
  induction as with
  | nil => rfl
  | cons p t ih =>
    simp only [List.filter_cons]
    by_cases hp : (p.1 != k') = true
    · rw [if_pos hp]
      simp only [List.find?_cons]
      cases hpk : p.1 == k
      · simp only [hpk]
        exact ih
      · simp only [hpk]
    · rw [if_neg hp]
      have hpk' : p.1 = k' := by
        revert hp
        cases hx : p.1 == k' with
        | true => intro _; simpa using hx
        | false => simp [bne, hx]
      have hpk : (p.1 == k) = false := by
        subst hpk'
        cases hx : p.1 == k with
        | true =>
          have : p.1 = k := by simpa using hx
          rw [← this] at h
          rw [show (p.1 == p.1) = true by simp] at h
          exact absurd h (by simp)
        | false => rfl
      simp only [List.find?_cons, hpk]
      exact ih

theorem hasAttr_delAttr_self (as : List (String × String)) (k : String) :
    hasAttr (delAttr as k) k = false := by
  unfold hasAttr delAttr
  induction as with
  | nil => rfl
  | cons p t ih =>
    simp only [List.filter_cons]
    by_cases hp : (p.1 != k) = true
    · rw [if_pos hp]
      have hpk : (p.1 == k) = false := by
        revert hp
        cases hx : p.1 == k <;> simp [bne, hx]
      simp only [List.any_cons, hpk, Bool.false_or]
      exact ih
    · rw [if_neg hp]
      exact ih

theorem countAttrKey_setAttr (as : List (String × String)) (k v : String) :
    countAttrKey k (setAttr as k v) = 1 := by
  unfold countAttrKey setAttr
  induction as with
  | nil => simp
  | cons p t ih =>
    simp only [List.filter_cons]
    by_cases hp : (p.1 != k) = true
    · rw [if_pos hp]
      have hpk : (p.1 == k) = false := by
        revert hp
        cases hx : p.1 == k <;> simp [bne, hx]
      simp only [List.cons_append, List.filter_cons, hpk, Bool.false_eq_true, if_false]
      exact ih
    · rw [if_neg hp]
      exact ih

theorem hasAttr_exists_getAttr (as : List (String × String)) (k : String)
    (h : hasAttr as k = true) : ∃ v, getAttr as k = some v := by
  unfold hasAttr at h
  unfold getAttr
  induction as with
  | nil => simp at h
  | cons p t ih =>
    simp only [List.any_cons, Bool.or_eq_true] at h
    cases hpk : p.1 == k with
    | true => exact ⟨p.2, by simp [List.find?_cons, hpk]⟩
    | false =>
      rcases h with h | h
      · rw [hpk] at h
        exact absurd h (by simp)
      · simpa [List.find?_cons, hpk] using ih h

/-- The name→id conversion on one anchor: the new `id` carries the old `name`
value and `name` itself is gone. -/
theorem convertAnchorAttrs_spec (as : List (String × String))
    (h : hasAttr as "name" = true) :
    getAttr (convertAnchorAttrs as) "id" = getAttr as "name" ∧
    hasAttr (convertAnchorAttrs as) "name" = false := by
  obtain ⟨v, hv⟩ := hasAttr_exists_getAttr as "name" h
  unfold convertAnchorAttrs
  rw [if_pos h, hv]
  constructor
  · rw [getAttr_delAttr_ne _ "id" "name" (by decide), getAttr_setAttr_self]
  · exact hasAttr_delAttr_self _ "name"

/-! ## List-level freeness corollaries (via a neutral wrapper element) -/

theorem hasElemNamedL_removeCharset (nm : String) (hnm : (("" : String) == nm) = false)
    (l : List Node) (h : hasElemNamedL nm l = false) :
    hasElemNamedL nm (removeCharsetL l) = false := by
  have hw : hasElemNamedNode nm (removeCharsetNode (Node.elem "" [] l)) = false := by
    apply hasElemNamed_removeCharset
    simp only [hasElemNamedNode, hnm, Bool.false_or]
    exact h
  have hw2 : hasElemNamedNode nm (Node.elem "" [] (removeCharsetL l)) = false := hw
  simp only [hasElemNamedNode, hnm, Bool.false_or] at hw2
  exact hw2

theorem hasElemNamedL_remP (nm : String) (hnm : (("" : String) == nm) = false)
    (l : List Node) (h : hasElemNamedL nm l = false) :
    hasElemNamedL nm (remove_empty_paragraphs l) = false := by
  have hw : hasElemNamedNode nm (remove_empty_paragraphs_node (Node.elem "" [] l)) = false := by
    apply hasElemNamed_remP
    simp only [hasElemNamedNode, hnm, Bool.false_or]
    exact h
  have hw2 : hasElemNamedNode nm (Node.elem "" [] (remove_empty_paragraphs l)) = false := hw
  simp only [hasElemNamedNode, hnm, Bool.false_or] at hw2
  exact hw2

theorem hasElemNamedL_convert (nm : String) (hnm : (("" : String) == nm) = false)
    (l : List Node) :
    hasElemNamedL nm (convertNameToIdL l) = hasElemNamedL nm l := by
  have hw := hasElemNamed_convert (Node.elem "" [] l) nm
  have hw2 : hasElemNamedNode nm (Node.elem ""
      (if ("" == "a") = true then convertAnchorAttrs [] else [])
      (convertNameToIdL l)) = hasElemNamedNode nm (Node.elem "" [] l) := hw
  simp only [hasElemNamedNode, hnm, Bool.false_or] at hw2
  exact hw2

/-- Removing empty paragraphs passes over non-element prefixes unchanged. -/
theorem remP_append_nonElem (pre rest : List Node)
    (h : ∀ n ∈ pre, isElemNode n = false) :
    remove_empty_paragraphs (pre ++ rest) = pre ++ remove_empty_paragraphs rest := by
  induction pre with
  | nil => rfl
  | cons n t ih =>
    have hn := h n (List.mem_cons_self n t)
    have ht := fun x hx => h x (List.mem_cons_of_mem n hx)
    cases n with
    | text s =>
      show remove_empty_paragraphs_node.go (Node.text s :: (t ++ rest)) = _
      simp only [remove_empty_paragraphs_node.go]
      rw [show remove_empty_paragraphs_node.go (t ++ rest) =
        remove_empty_paragraphs (t ++ rest) from rfl, ih ht]
      rfl
    | doctype a b c =>
      show remove_empty_paragraphs_node.go (Node.doctype a b c :: (t ++ rest)) = _
      simp only [remove_empty_paragraphs_node.go]
      rw [show remove_empty_paragraphs_node.go (t ++ rest) =
        remove_empty_paragraphs (t ++ rest) from rfl, ih ht]
      rfl
    | elem name attrs kids => simp [isElemNode] at hn

/-- Monadic bind on a `some` value, at the instance produced by `do` notation. -/
theorem bind_some_eq {α β : Type} (a : α) (f : α → Option β) :
    (do let x ← some a; f x) = f a := rfl

/-! ## Closed form of the normalizer on a parser-shaped document -/

/-- On a document of the shape the permissive parser produces — optional
non-element prelude, then `html` with a `head` and a `body` — `html2xhtml`
succeeds for every supported version and its output has the indicated closed
form. -/
theorem html2xhtml_shape (pre hkids bkids : List Node)
    (ha hea ba : List (String × String)) (ver : String) (dt : String × String × String)
    (hver : DOCTYPES ver = some dt)
    (hpre : ∀ n ∈ pre, isElemNode n = false)
    (hnb : hasElemNamedL "body" hkids = false) :
    html2xhtml (pre ++ [Node.elem "html" ha
      [Node.elem "head" hea hkids, Node.elem "body" ba bkids]]) ver =
    some (Node.doctype dt.1 dt.2.1 dt.2.2 :: pre.map clearDoctypeNode ++
      [Node.elem "html" (setAttr ha "xmlns" xhtmlNamespace)
        [Node.elem "head" hea
           (cvtIf ver (remove_empty_paragraphs
             (removeCharsetL hkids ++ [canonicalCharsetMeta]))),
         Node.elem "body" ba
           [Node.elem "div" [] (cvtIf ver (remove_empty_paragraphs bkids))]]]) := by
  have hpre' : ∀ n ∈ (Node.doctype dt.1 dt.2.1 dt.2.2 :: pre.map clearDoctypeNode),
      isElemNode n = false := by
    intro n hn
    rcases List.mem_cons.mp hn with rfl | hn2
    · rfl
    · exact clear_nonElem_of_nonElem pre hpre n hn2
  have hsplit : ∀ X : List Node,
      (Node.doctype dt.1 dt.2.1 dt.2.2 :: pre.map clearDoctypeNode ++ X) =
      ((Node.doctype dt.1 dt.2.1 dt.2.2 :: pre.map clearDoctypeNode) ++ X) := fun X => rfl
  have h1 : set_doctype ver (pre ++ [Node.elem "html" ha
      [Node.elem "head" hea hkids, Node.elem "body" ba bkids]]) =
      some (Node.doctype dt.1 dt.2.1 dt.2.2 :: pre.map clearDoctypeNode ++
        [Node.elem "html" ha [Node.elem "head" hea hkids, Node.elem "body" ba bkids]]) := by
    unfold set_doctype
    rw [hver]
    simp [List.map_append, clearDoctypeNode]
  have h2 : set_xml_namespace (Node.doctype dt.1 dt.2.1 dt.2.2 :: pre.map clearDoctypeNode ++
      [Node.elem "html" ha [Node.elem "head" hea hkids, Node.elem "body" ba bkids]]) =
      some (Node.doctype dt.1 dt.2.1 dt.2.2 :: pre.map clearDoctypeNode ++
        [Node.elem "html" (setAttr ha "xmlns" xhtmlNamespace)
          [Node.elem "head" hea hkids, Node.elem "body" ba bkids]]) := by
    unfold set_xml_namespace
    rw [hsplit, modFirstL_append_nonElem _ _ _ _ hpre', modFirstL_cons_hit]
    rfl
  have h3 : set_charset (Node.doctype dt.1 dt.2.1 dt.2.2 :: pre.map clearDoctypeNode ++
      [Node.elem "html" (setAttr ha "xmlns" xhtmlNamespace)
        [Node.elem "head" hea hkids, Node.elem "body" ba bkids]]) =
      some (Node.doctype dt.1 dt.2.1 dt.2.2 :: pre.map clearDoctypeNode ++
        [Node.elem "html" (setAttr ha "xmlns" xhtmlNamespace)
          [Node.elem "head" hea (removeCharsetL hkids ++ [canonicalCharsetMeta]),
           Node.elem "body" ba bkids]]) := by
    unfold set_charset
    rw [hsplit, modFirstL_append_nonElem _ _ _ _ hpre', modFirstL_cons_hit]
    rw [modFirstL_cons_hit]
    rfl
  have h4 : remove_empty_paragraphs (Node.doctype dt.1 dt.2.1 dt.2.2 ::
      pre.map clearDoctypeNode ++
      [Node.elem "html" (setAttr ha "xmlns" xhtmlNamespace)
        [Node.elem "head" hea (removeCharsetL hkids ++ [canonicalCharsetMeta]),
         Node.elem "body" ba bkids]]) =
      Node.doctype dt.1 dt.2.1 dt.2.2 :: pre.map clearDoctypeNode ++
        [Node.elem "html" (setAttr ha "xmlns" xhtmlNamespace)
          [Node.elem "head" hea
            (remove_empty_paragraphs (removeCharsetL hkids ++ [canonicalCharsetMeta])),
           Node.elem "body" ba (remove_empty_paragraphs bkids)]] := by
    rw [hsplit, remP_append_nonElem _ _ hpre']
    show _ ++ remove_empty_paragraphs_node.go _ = _
    simp only [remove_empty_paragraphs_node.go, remove_empty_paragraphs_node]
    rfl
  have h5 : (if ver == "1.1" then
      convert_name_to_id (Node.doctype dt.1 dt.2.1 dt.2.2 :: pre.map clearDoctypeNode ++
        [Node.elem "html" (setAttr ha "xmlns" xhtmlNamespace)
          [Node.elem "head" hea
            (remove_empty_paragraphs (removeCharsetL hkids ++ [canonicalCharsetMeta])),
           Node.elem "body" ba (remove_empty_paragraphs bkids)]])
      else pure (Node.doctype dt.1 dt.2.1 dt.2.2 :: pre.map clearDoctypeNode ++
        [Node.elem "html" (setAttr ha "xmlns" xhtmlNamespace)
          [Node.elem "head" hea
            (remove_empty_paragraphs (removeCharsetL hkids ++ [canonicalCharsetMeta])),
           Node.elem "body" ba (remove_empty_paragraphs bkids)]])) =
      some (Node.doctype dt.1 dt.2.1 dt.2.2 :: pre.map clearDoctypeNode ++
        [Node.elem "html" (setAttr ha "xmlns" xhtmlNamespace)
          [Node.elem "head" hea
            (cvtIf ver (remove_empty_paragraphs
              (removeCharsetL hkids ++ [canonicalCharsetMeta]))),
           Node.elem "body" ba (cvtIf ver (remove_empty_paragraphs bkids))]]) := by
    by_cases hv : (ver == "1.1") = true
    · rw [if_pos hv]
      unfold convert_name_to_id
      rw [hsplit, modFirstL_append_nonElem _ _ _ _ hpre', modFirstL_cons_hit]
      simp only [Option.map_some', List.cons_append, Option.some.injEq, cvtIf, hv, if_true]
      have hcvt : convertNameToIdL
          [Node.elem "head" hea
            (remove_empty_paragraphs (removeCharsetL hkids ++ [canonicalCharsetMeta])),
           Node.elem "body" ba (remove_empty_paragraphs bkids)] =
          [Node.elem "head" hea (convertNameToIdL
            (remove_empty_paragraphs (removeCharsetL hkids ++ [canonicalCharsetMeta]))),
           Node.elem "body" ba (convertNameToIdL (remove_empty_paragraphs bkids))] := by
        rfl
      rw [hcvt]
    · rw [if_neg hv]
      simp only [pure, cvtIf, hv, Bool.false_eq_true, if_false]
  have hheadfree : hasElemNamedNode "body" (Node.elem "head" hea
      (cvtIf ver (remove_empty_paragraphs
        (removeCharsetL hkids ++ [canonicalCharsetMeta])))) = false := by
    have s0 : hasElemNamedL "body" (removeCharsetL hkids) = false :=
      hasElemNamedL_removeCharset "body" (by decide) hkids hnb
    have s1 : hasElemNamedL "body" (removeCharsetL hkids ++ [canonicalCharsetMeta]) = false := by
      rw [hasElemNamedL_append, s0]
      rfl
    have s2 : hasElemNamedL "body"
        (remove_empty_paragraphs (removeCharsetL hkids ++ [canonicalCharsetMeta])) = false :=
      hasElemNamedL_remP "body" (by decide) _ s1
    have s3 : hasElemNamedL "body" (cvtIf ver (remove_empty_paragraphs
        (removeCharsetL hkids ++ [canonicalCharsetMeta]))) = false := by
      unfold cvtIf
      by_cases hv : (ver == "1.1") = true
      · rw [if_pos hv, hasElemNamedL_convert "body" (by decide)]
        exact s2
      · rw [if_neg hv]
        exact s2
    simp only [hasElemNamedNode]
    rw [show hasElemNamedNode.go "body" (cvtIf ver (remove_empty_paragraphs
      (removeCharsetL hkids ++ [canonicalCharsetMeta]))) =
      hasElemNamedL "body" (cvtIf ver (remove_empty_paragraphs
        (removeCharsetL hkids ++ [canonicalCharsetMeta]))) from rfl, s3]
    rfl
  have h6 : wrap_body (Node.doctype dt.1 dt.2.1 dt.2.2 :: pre.map clearDoctypeNode ++
      [Node.elem "html" (setAttr ha "xmlns" xhtmlNamespace)
        [Node.elem "head" hea
          (cvtIf ver (remove_empty_paragraphs
            (removeCharsetL hkids ++ [canonicalCharsetMeta]))),
         Node.elem "body" ba (cvtIf ver (remove_empty_paragraphs bkids))]]) =
      some (Node.doctype dt.1 dt.2.1 dt.2.2 :: pre.map clearDoctypeNode ++
        [Node.elem "html" (setAttr ha "xmlns" xhtmlNamespace)
          [Node.elem "head" hea
            (cvtIf ver (remove_empty_paragraphs
              (removeCharsetL hkids ++ [canonicalCharsetMeta]))),
           Node.elem "body" ba
             [Node.elem "div" [] (cvtIf ver (remove_empty_paragraphs bkids))]]]) := by
    unfold wrap_body
    rw [hsplit, modFirstL_append_nonElem _ _ _ _ hpre']
    have hhd : modFirstNode "body"
        (fun attrs kids => some (Node.elem "body" attrs [Node.elem "div" [] kids]))
        (Node.elem "head" hea
          (cvtIf ver (remove_empty_paragraphs
            (removeCharsetL hkids ++ [canonicalCharsetMeta])))) = none :=
      modFirstGo_of_no_named _ "body" _ hheadfree
    have hg1 : modFirstNode.go "body"
        (fun attrs kids => some (Node.elem "body" attrs [Node.elem "div" [] kids]))
        [Node.elem "head" hea
          (cvtIf ver (remove_empty_paragraphs
            (removeCharsetL hkids ++ [canonicalCharsetMeta]))),
         Node.elem "body" ba (cvtIf ver (remove_empty_paragraphs bkids))] =
        some (some [Node.elem "head" hea
          (cvtIf ver (remove_empty_paragraphs
            (removeCharsetL hkids ++ [canonicalCharsetMeta]))),
          Node.elem "body" ba
            [Node.elem "div" [] (cvtIf ver (remove_empty_paragraphs bkids))]]) := by
      rw [modFirstGo_cons_none _ _ _ _ hhd, modFirstGo_cons_hit]
      rfl
    rw [modFirstL_cons_descend "body" _ "html" _ _ _ _ (by decide) hg1]
    rfl
  unfold html2xhtml
  rw [h1]
  simp only [bind_some_eq]
  rw [h2]
  simp only [bind_some_eq]
  rw [h3]
  simp only [bind_some_eq]
  rw [h4]
  by_cases hv : (ver == "1.1") = true
  · rw [if_pos hv] at h5 ⊢
    rw [h5]
    simp only [bind_some_eq]
    exact h6
  · rw [if_neg hv] at h5 ⊢
    rw [h5]
    simp only [bind_some_eq]
    exact h6

/-! ## List-level count corollaries -/

theorem countCharsetL_removeCharset (l : List Node) :
    countCharsetL (removeCharsetL l) = 0 := by
  have h := countCharset_removeCharset (Node.elem "" [] l)
  have h2 : countCharsetNode (Node.elem "" [] (removeCharsetL l)) =
      (if isCharsetMetaNode (Node.elem "" [] l) then 1 else 0) := h
  simp only [countCharsetNode, isCharsetMetaNode, isCharsetMeta, hasAttr, getAttr] at h2
  simpa [countCharsetL] using h2

theorem countCharsetL_remP (l : List Node) :
    countCharsetL (remove_empty_paragraphs l) = countCharsetL l := by
  have h := countCharset_remP (Node.elem "" [] l)
  have h2 : countCharsetNode (Node.elem "" [] (remove_empty_paragraphs l)) =
      countCharsetNode (Node.elem "" [] l) := h
  simp only [countCharsetNode, isCharsetMeta, hasAttr, getAttr] at h2
  simpa [countCharsetL] using h2

theorem countCharsetL_convert (l : List Node) :
    countCharsetL (convertNameToIdL l) = countCharsetL l := by
  have h := countCharset_convert (Node.elem "" [] l)
  have h2 : countCharsetNode (Node.elem ""
      (if ("" == "a") = true then convertAnchorAttrs [] else [])
      (convertNameToIdL l)) = countCharsetNode (Node.elem "" [] l) := h
  simp only [countCharsetNode, isCharsetMeta, hasAttr, getAttr] at h2
  simpa [countCharsetL] using h2

theorem countDoctypeL_removeCharset_le (l : List Node) :
    countDoctypeL (removeCharsetL l) ≤ countDoctypeL l :=
  countDoctype_removeCharset_le (Node.elem "" [] l)

theorem countDoctypeL_remP_le (l : List Node) :
    countDoctypeL (remove_empty_paragraphs l) ≤ countDoctypeL l :=
  countDoctype_remP_le (Node.elem "" [] l)

theorem countDoctypeL_convert (l : List Node) :
    countDoctypeL (convertNameToIdL l) = countDoctypeL l :=
  countDoctype_convert (Node.elem "" [] l)

theorem countDoctypeL_cvtIf (ver : String) (l : List Node) :
    countDoctypeL (cvtIf ver l) = countDoctypeL l := by
  unfold cvtIf
  by_cases hv : (ver == "1.1") = true
  · rw [if_pos hv, countDoctypeL_convert]
  · rw [if_neg hv]

theorem countCharsetL_cvtIf (ver : String) (l : List Node) :
    countCharsetL (cvtIf ver l) = countCharsetL l := by
  unfold cvtIf
  by_cases hv : (ver == "1.1") = true
  · rw [if_pos hv, countCharsetL_convert]
  · rw [if_neg hv]

/-! ## Claim C4: unique doctype, namespace and charset declarations -/

/-- Unique-declaration property of one normalizer pass (shared helper). -/
theorem uniqueDecls_of_shaped (pre hkids bkids : List Node)
    (ha hea ba : List (String × String)) (ver : String) (dt : String × String × String)
    (out : Doc)
    (hver : DOCTYPES ver = some dt)
    (hpre : ∀ n ∈ pre, isElemNode n = false)
    (hnb : hasElemNamedL "body" hkids = false)
    (hdh : countDoctypeL hkids = 0)
    (hdb : countDoctypeL bkids = 0)
    (hout : html2xhtml (pre ++ [Node.elem "html" ha
      [Node.elem "head" hea hkids, Node.elem "body" ba bkids]]) ver = some out) :
    countDoctypeL out = 1 ∧
    ∃ htmlN headN,
      findElemL "html" out = some htmlN ∧
      countAttrKey "xmlns" (attrsOf htmlN) = 1 ∧
      getAttr (attrsOf htmlN) "xmlns" = some xhtmlNamespace ∧
      findElemL "head" (childrenOf htmlN) = some headN ∧
      countCharsetL (childrenOf headN) = 1 := by
  have hshape := html2xhtml_shape pre hkids bkids ha hea ba ver dt hver hpre hnb
  rw [hout] at hshape
  have hne := Option.some.inj hshape
  subst hne
  have hpre' : ∀ n ∈ (Node.doctype dt.1 dt.2.1 dt.2.2 :: pre.map clearDoctypeNode),
      isElemNode n = false := by
    intro n hn
    rcases List.mem_cons.mp hn with rfl | hn2
    · rfl
    · exact clear_nonElem_of_nonElem pre hpre n hn2
  have hKd : countDoctypeL (cvtIf ver (remove_empty_paragraphs
      (removeCharsetL hkids ++ [canonicalCharsetMeta]))) = 0 := by
    rw [countDoctypeL_cvtIf]
    have h1 := countDoctypeL_remP_le (removeCharsetL hkids ++ [canonicalCharsetMeta])
    rw [countDoctypeL_append] at h1
    have h2 := countDoctypeL_removeCharset_le hkids
    have h3 : countDoctypeL [canonicalCharsetMeta] = 0 := rfl
    omega
  have hBd : countDoctypeL (cvtIf ver (remove_empty_paragraphs bkids)) = 0 := by
    rw [countDoctypeL_cvtIf]
    have h1 := countDoctypeL_remP_le bkids
    omega
  have hKc : countCharsetL (cvtIf ver (remove_empty_paragraphs
      (removeCharsetL hkids ++ [canonicalCharsetMeta]))) = 1 := by
    rw [countCharsetL_cvtIf, countCharsetL_remP, countCharsetL_append,
      countCharsetL_removeCharset]
    rfl
  constructor
  · show countDoctypeNode.go _ = 1
    simp only [countDoctypeNode.go, countDoctypeNode, List.append_eq]
    rw [show countDoctypeNode.go (pre.map clearDoctypeNode ++
        [Node.elem "html" (setAttr ha "xmlns" xhtmlNamespace)
          [Node.elem "head" hea
            (cvtIf ver (remove_empty_paragraphs
              (removeCharsetL hkids ++ [canonicalCharsetMeta]))),
           Node.elem "body" ba
             [Node.elem "div" [] (cvtIf ver (remove_empty_paragraphs bkids))]]]) =
      countDoctypeL (pre.map clearDoctypeNode ++
        [Node.elem "html" (setAttr ha "xmlns" xhtmlNamespace)
          [Node.elem "head" hea
            (cvtIf ver (remove_empty_paragraphs
              (removeCharsetL hkids ++ [canonicalCharsetMeta]))),
           Node.elem "body" ba
             [Node.elem "div" [] (cvtIf ver (remove_empty_paragraphs bkids))]]]) from rfl]
    rw [countDoctypeL_append, countDoctypeL_clear_nonElem pre hpre]
    have hhtml : countDoctypeL
        [Node.elem "html" (setAttr ha "xmlns" xhtmlNamespace)
          [Node.elem "head" hea
            (cvtIf ver (remove_empty_paragraphs
              (removeCharsetL hkids ++ [canonicalCharsetMeta]))),
           Node.elem "body" ba
             [Node.elem "div" [] (cvtIf ver (remove_empty_paragraphs bkids))]]] =
        countDoctypeL (cvtIf ver (remove_empty_paragraphs
          (removeCharsetL hkids ++ [canonicalCharsetMeta]))) +
        countDoctypeL (cvtIf ver (remove_empty_paragraphs bkids)) := by
      simp only [countDoctypeL, countDoctypeNode.go, countDoctypeNode]
      omega
    rw [hhtml, hKd, hBd]
  · refine ⟨Node.elem "html" (setAttr ha "xmlns" xhtmlNamespace)
      [Node.elem "head" hea
        (cvtIf ver (remove_empty_paragraphs
          (removeCharsetL hkids ++ [canonicalCharsetMeta]))),
       Node.elem "body" ba
         [Node.elem "div" [] (cvtIf ver (remove_empty_paragraphs bkids))]],
      Node.elem "head" hea
        (cvtIf ver (remove_empty_paragraphs
          (removeCharsetL hkids ++ [canonicalCharsetMeta]))), ?_, ?_, ?_, ?_, ?_⟩
    · rw [show (Node.doctype dt.1 dt.2.1 dt.2.2 :: pre.map clearDoctypeNode ++
          [Node.elem "html" (setAttr ha "xmlns" xhtmlNamespace)
            [Node.elem "head" hea
              (cvtIf ver (remove_empty_paragraphs
                (removeCharsetL hkids ++ [canonicalCharsetMeta]))),
             Node.elem "body" ba
               [Node.elem "div" [] (cvtIf ver (remove_empty_paragraphs bkids))]]]) =
        ((Node.doctype dt.1 dt.2.1 dt.2.2 :: pre.map clearDoctypeNode) ++
          [Node.elem "html" (setAttr ha "xmlns" xhtmlNamespace)
            [Node.elem "head" hea
              (cvtIf ver (remove_empty_paragraphs
                (removeCharsetL hkids ++ [canonicalCharsetMeta]))),
             Node.elem "body" ba
               [Node.elem "div" [] (cvtIf ver (remove_empty_paragraphs bkids))]]]) from rfl,
        findElemL_append_nonElem _ _ _ hpre', findElemL_cons_hit]
    · exact countAttrKey_setAttr ha "xmlns" xhtmlNamespace
    · exact getAttr_setAttr_self ha "xmlns" xhtmlNamespace
    · exact findElemL_cons_hit "head" _ _ _
    · exact hKc

/-- C4: on a parser-shaped input (non-element prelude, `html` with `head`
and `body`, no nested `body` inside the head and no doctype nodes below the
top level), the normalized output contains exactly one doctype, the root
`html` element carries exactly one `xmlns` attribute whose value is the
fixed XHTML namespace, and the head contains exactly one charset-declaring
meta element. -/
theorem normalized_doc_unique_declarations (pre hkids bkids : List Node)
    (ha hea ba : List (String × String)) (ver : String) (dt : String × String × String)
    (out : Doc)
    (hver : DOCTYPES ver = some dt)
    (hpre : ∀ n ∈ pre, isElemNode n = false)
    (hnb : hasElemNamedL "body" hkids = false)
    (hdh : countDoctypeL hkids = 0)
    (hdb : countDoctypeL bkids = 0)
    (hout : html2xhtml (pre ++ [Node.elem "html" ha
      [Node.elem "head" hea hkids, Node.elem "body" ba bkids]]) ver = some out) :
    countDoctypeL out = 1 ∧
    ∃ htmlN headN,
      findElemL "html" out = some htmlN ∧
      countAttrKey "xmlns" (attrsOf htmlN) = 1 ∧
      getAttr (attrsOf htmlN) "xmlns" = some xhtmlNamespace ∧
      findElemL "head" (childrenOf htmlN) = some headN ∧
      countCharsetL (childrenOf headN) = 1 :=
  uniqueDecls_of_shaped pre hkids bkids ha hea ba ver dt out hver hpre hnb hdh hdb hout

/-- Witness for C4 at a concrete minimal document. -/
theorem normalized_doc_unique_declarations_witness :
    countDoctypeL c4Out = 1 ∧
    ∃ htmlN headN,
      findElemL "html" c4Out = some htmlN ∧
      countAttrKey "xmlns" (attrsOf htmlN) = 1 ∧
      getAttr (attrsOf htmlN) "xmlns" = some xhtmlNamespace ∧
      findElemL "head" (childrenOf htmlN) = some headN ∧
      countCharsetL (childrenOf headN) = 1 :=
  normalized_doc_unique_declarations [] [] [] [] [] [] "1.1"
    ("html", "-//W3C//DTD XHTML 1.1//EN", "http://www.w3.org/TR/xhtml11/DTD/xhtml11.dtd")
    c4Out rfl (by simp) rfl rfl rfl rfl

/-! ## Claim C7: anchor name-to-id conversion -/

theorem anchorAttrsL_removeCharset (l : List Node) (h : csMetasEmptyL l = true) :
    anchorAttrsL (removeCharsetL l) = anchorAttrsL l := by
  have hw : csMetasEmptyNode (Node.elem "" [] l) = true := by
    simp only [csMetasEmptyNode, isCharsetMeta, hasAttr, getAttr]
    simp only [csMetasEmptyL] at h
    simp [h]
  have h2 := anchorAttrs_removeCharset (Node.elem "" [] l) hw
  have h3 : anchorAttrsNode (Node.elem "" [] (removeCharsetL l)) =
      anchorAttrsNode (Node.elem "" [] l) := h2
  simp only [anchorAttrsNode] at h3
  simpa [anchorAttrsL] using h3

theorem anchorAttrsL_remP (l : List Node) :
    anchorAttrsL (remove_empty_paragraphs l) = anchorAttrsL l := by
  have h2 := anchorAttrs_remP (Node.elem "" [] l)
  have h3 : anchorAttrsNode (Node.elem "" [] (remove_empty_paragraphs l)) =
      anchorAttrsNode (Node.elem "" [] l) := h2
  simp only [anchorAttrsNode] at h3
  simpa [anchorAttrsL] using h3

theorem anchorAttrsL_convert (l : List Node) :
    anchorAttrsL (convertNameToIdL l) = (anchorAttrsL l).map convertAnchorAttrs := by
  have h2 := anchorAttrs_convert (Node.elem "" [] l)
  have h3 : anchorAttrsNode (Node.elem ""
      (if ("" == "a") = true then convertAnchorAttrs [] else [])
      (convertNameToIdL l)) =
      (anchorAttrsNode (Node.elem "" [] l)).map convertAnchorAttrs := h2
  simp only [anchorAttrsNode] at h3
  simpa [anchorAttrsL] using h3

/-- The anchor attribute lists of the normalizer output, in terms of the
input head and body. -/
theorem anchorAttrsL_html2xhtml (pre hkids bkids : List Node)
    (ha hea ba : List (String × String)) (ver : String) (dt : String × String × String)
    (out : Doc)
    (hver : DOCTYPES ver = some dt)
    (hpre : ∀ n ∈ pre, isElemNode n = false)
    (hnb : hasElemNamedL "body" hkids = false)
    (hcs : csMetasEmptyL hkids = true)
    (hout : html2xhtml (pre ++ [Node.elem "html" ha
      [Node.elem "head" hea hkids, Node.elem "body" ba bkids]]) ver = some out) :
    anchorAttrsL out = cvtAnchors ver (anchorAttrsL hkids ++ anchorAttrsL bkids) := by
  have hshape := html2xhtml_shape pre hkids bkids ha hea ba ver dt hver hpre hnb
  rw [hout] at hshape
  have hne := Option.some.inj hshape
  subst hne
  have hpre' : ∀ n ∈ (Node.doctype dt.1 dt.2.1 dt.2.2 :: pre.map clearDoctypeNode),
      isElemNode n = false := by
    intro n hn
    rcases List.mem_cons.mp hn with rfl | hn2
    · rfl
    · exact clear_nonElem_of_nonElem pre hpre n hn2
  have hKa : anchorAttrsL (cvtIf ver (remove_empty_paragraphs
      (removeCharsetL hkids ++ [canonicalCharsetMeta]))) =
      cvtAnchors ver (anchorAttrsL hkids) := by
    unfold cvtIf cvtAnchors
    by_cases hv : (ver == "1.1") = true
    · rw [if_pos hv, if_pos hv, anchorAttrsL_convert, anchorAttrsL_remP, anchorAttrsL_append,
        anchorAttrsL_removeCharset hkids hcs]
      rw [show anchorAttrsL [canonicalCharsetMeta] = [] from rfl, List.append_nil]
    · rw [if_neg hv, if_neg hv, anchorAttrsL_remP, anchorAttrsL_append,
        anchorAttrsL_removeCharset hkids hcs]
      rw [show anchorAttrsL [canonicalCharsetMeta] = [] from rfl, List.append_nil]
  have hBa : anchorAttrsL (cvtIf ver (remove_empty_paragraphs bkids)) =
      cvtAnchors ver (anchorAttrsL bkids) := by
    unfold cvtIf cvtAnchors
    by_cases hv : (ver == "1.1") = true
    · rw [if_pos hv, if_pos hv, anchorAttrsL_convert, anchorAttrsL_remP]
    · rw [if_neg hv, if_neg hv, anchorAttrsL_remP]
  have hstep : anchorAttrsL (Node.doctype dt.1 dt.2.1 dt.2.2 :: pre.map clearDoctypeNode ++
      [Node.elem "html" (setAttr ha "xmlns" xhtmlNamespace)
        [Node.elem "head" hea
          (cvtIf ver (remove_empty_paragraphs
            (removeCharsetL hkids ++ [canonicalCharsetMeta]))),
         Node.elem "body" ba
           [Node.elem "div" [] (cvtIf ver (remove_empty_paragraphs bkids))]]]) =
      anchorAttrsL (pre.map clearDoctypeNode) ++
        (anchorAttrsL (cvtIf ver (remove_empty_paragraphs
          (removeCharsetL hkids ++ [canonicalCharsetMeta]))) ++
         anchorAttrsL (cvtIf ver (remove_empty_paragraphs bkids))) := by
    rw [show (Node.doctype dt.1 dt.2.1 dt.2.2 :: pre.map clearDoctypeNode ++
        [Node.elem "html" (setAttr ha "xmlns" xhtmlNamespace)
          [Node.elem "head" hea
            (cvtIf ver (remove_empty_paragraphs
              (removeCharsetL hkids ++ [canonicalCharsetMeta]))),
           Node.elem "body" ba
             [Node.elem "div" [] (cvtIf ver (remove_empty_paragraphs bkids))]]]) =
      ((Node.doctype dt.1 dt.2.1 dt.2.2 :: pre.map clearDoctypeNode) ++
        [Node.elem "html" (setAttr ha "xmlns" xhtmlNamespace)
          [Node.elem "head" hea
            (cvtIf ver (remove_empty_paragraphs
              (removeCharsetL hkids ++ [canonicalCharsetMeta]))),
           Node.elem "body" ba
             [Node.elem "div" [] (cvtIf ver (remove_empty_paragraphs bkids))]]]) from rfl]
    rw [anchorAttrsL_append]
    rw [show anchorAttrsL (Node.doctype dt.1 dt.2.1 dt.2.2 :: pre.map clearDoctypeNode) =
      anchorAttrsL (pre.map clearDoctypeNode) from rfl]
    congr 1
    simp only [anchorAttrsL, anchorAttrsNode.go, anchorAttrsNode]
    simp
  rw [hstep, anchorAttrsL_nonElem _ (clear_nonElem_of_nonElem pre hpre), List.nil_append,
    hKa, hBa]
  unfold cvtAnchors
  by_cases hv : (ver == "1.1") = true
  · rw [if_pos hv, if_pos hv, if_pos hv, List.map_append]
  · rw [if_neg hv, if_neg hv, if_neg hv]

/-- C7: on a parser-shaped input, normalizing with version "1.1" rewrites
every anchor attribute list with the name-to-id conversion — in particular
every anchor that had a `name` attribute has, in the output, an `id`
attribute with the same value and no `name` attribute — while any other
version leaves all anchor attribute lists unchanged. -/
theorem anchors_name_to_id (pre hkids bkids : List Node)
    (ha hea ba : List (String × String)) (ver : String) (dt : String × String × String)
    (out : Doc)
    (hver : DOCTYPES ver = some dt)
    (hpre : ∀ n ∈ pre, isElemNode n = false)
    (hnb : hasElemNamedL "body" hkids = false)
    (hcs : csMetasEmptyL hkids = true)
    (hout : html2xhtml (pre ++ [Node.elem "html" ha
      [Node.elem "head" hea hkids, Node.elem "body" ba bkids]]) ver = some out) :
    ((ver == "1.1") = true →
      anchorAttrsL out = (anchorAttrsL hkids ++ anchorAttrsL bkids).map convertAnchorAttrs ∧
      ∀ as ∈ anchorAttrsL hkids ++ anchorAttrsL bkids,
        hasAttr as "name" = true →
          ∃ as' ∈ anchorAttrsL out,
            getAttr as' "id" = getAttr as "name" ∧ hasAttr as' "name" = false) ∧
    ((ver == "1.1") = false →
      anchorAttrsL out = anchorAttrsL hkids ++ anchorAttrsL bkids) := by
  have hmain := anchorAttrsL_html2xhtml pre hkids bkids ha hea ba ver dt out
    hver hpre hnb hcs hout
  constructor
  · intro hv
    unfold cvtAnchors at hmain
    rw [if_pos hv] at hmain
    refine ⟨hmain, ?_⟩
    intro as has hname
    refine ⟨convertAnchorAttrs as, ?_, ?_⟩
    · rw [hmain]
      exact List.mem_map_of_mem convertAnchorAttrs has
    · exact convertAnchorAttrs_spec as hname
  · intro hv
    unfold cvtAnchors at hmain
    rw [hv] at hmain
    simpa using hmain

/-- Witness for C7 at a concrete document with one named anchor. -/
theorem anchors_name_to_id_witness :
    ((("1.1" : String) == "1.1") = true →
      anchorAttrsL c7Out =
        (anchorAttrsL ([] : List Node) ++ anchorAttrsL c7Bkids).map convertAnchorAttrs ∧
      ∀ as ∈ anchorAttrsL ([] : List Node) ++ anchorAttrsL c7Bkids,
        hasAttr as "name" = true →
          ∃ as' ∈ anchorAttrsL c7Out,
            getAttr as' "id" = getAttr as "name" ∧ hasAttr as' "name" = false) ∧
    ((("1.1" : String) == "1.1") = false →
      anchorAttrsL c7Out = anchorAttrsL ([] : List Node) ++ anchorAttrsL c7Bkids) :=
  anchors_name_to_id [] [] c7Bkids [] [] [] "1.1"
    ("html", "-//W3C//DTD XHTML 1.1//EN", "http://www.w3.org/TR/xhtml11/DTD/xhtml11.dtd")
    c7Out rfl (by simp) rfl rfl rfl

/-! ## Claim C8: empty-paragraph removal -/

theorem pAttrsNode_nonElem (n : Node) (h : isElemNode n = false) :
    pAttrsNode n = [] := by
  cases n with
  | text s => rfl
  | doctype a b c => rfl
  | elem name attrs kids => simp [isElemNode] at h

theorem pAttrsL_nonElem (l : List Node) (h : ∀ n ∈ l, isElemNode n = false) :
    pAttrsL l = [] := by
  induction l with
  | nil => rfl
  | cons n t ih =>
    simp only [pAttrsL, pAttrsNode.go]
    rw [pAttrsNode_nonElem n (h n (List.mem_cons_self n t))]
    rw [List.nil_append]
    exact ih (fun x hx => h x (List.mem_cons_of_mem n hx))

theorem pAttrsL_remP (l : List Node) :
    pAttrsL (remove_empty_paragraphs l) = nonEmptyPAttrsL l := by
  have h := pAttrs_remP (Node.elem "" [] l)
  have h2 : pAttrsNode (Node.elem "" [] (remove_empty_paragraphs l)) =
      (if nameOf (Node.elem "" [] l) == "p" then [attrsOf (Node.elem "" [] l)] else []) ++
        nonEmptyPAttrsL (childrenOf (Node.elem "" [] l)) := h
  simp only [pAttrsNode, nameOf, attrsOf, childrenOf] at h2
  simpa [pAttrsL] using h2

theorem pAttrsL_convert (l : List Node) :
    pAttrsL (convertNameToIdL l) = pAttrsL l := by
  have h := pAttrs_convert (Node.elem "" [] l)
  have h2 : pAttrsNode (Node.elem ""
      (if ("" == "a") = true then convertAnchorAttrs [] else [])
      (convertNameToIdL l)) = pAttrsNode (Node.elem "" [] l) := h
  simp only [pAttrsNode] at h2
  simpa [pAttrsL] using h2

theorem pAttrsL_cvtIf (ver : String) (l : List Node) :
    pAttrsL (cvtIf ver l) = pAttrsL l := by
  unfold cvtIf
  by_cases hv : (ver == "1.1") = true
  · rw [if_pos hv, pAttrsL_convert]
  · rw [if_neg hv]

theorem pAttrsL_of_pFree (l : List Node) (h : hasElemNamedL "p" l = false) :
    pAttrsL l = [] := by
  have hw : hasElemNamedNode "p" (Node.elem "" [] l) = false := by
    simp only [hasElemNamedNode]
    simp [h, hasElemNamedL] at h ⊢
    exact h
  have h2 := pAttrs_of_pFree (Node.elem "" [] l) hw
  have h3 : pAttrsNode (Node.elem "" [] l) = [] := h2
  simp only [pAttrsNode] at h3
  simpa [pAttrsL] using h3

/-- C8: a paragraph whose children are only whitespace text (or absent) is
dropped by the paragraph-removal pass, and a paragraph with an element child
or non-whitespace text is kept — the surviving paragraph attribute lists are
exactly those of the non-empty paragraphs; consequently, on a parser-shaped
input with a paragraph-free head, the paragraphs of the normalized output
are exactly the non-empty paragraphs of the input body. -/
theorem empty_paragraphs_removed (pre hkids bkids : List Node)
    (ha hea ba : List (String × String)) (ver : String) (dt : String × String × String)
    (out : Doc)
    (hver : DOCTYPES ver = some dt)
    (hpre : ∀ n ∈ pre, isElemNode n = false)
    (hnb : hasElemNamedL "body" hkids = false)
    (hnp : hasElemNamedL "p" hkids = false)
    (hout : html2xhtml (pre ++ [Node.elem "html" ha
      [Node.elem "head" hea hkids, Node.elem "body" ba bkids]]) ver = some out) :
    pAttrsL (remove_empty_paragraphs bkids) = nonEmptyPAttrsL bkids ∧
    pAttrsL out = nonEmptyPAttrsL bkids := by
  refine ⟨pAttrsL_remP bkids, ?_⟩
  have hshape := html2xhtml_shape pre hkids bkids ha hea ba ver dt hver hpre hnb
  rw [hout] at hshape
  have hne := Option.some.inj hshape
  subst hne
  have hKfree : hasElemNamedL "p" (cvtIf ver (remove_empty_paragraphs
      (removeCharsetL hkids ++ [canonicalCharsetMeta]))) = false := by
    have s0 : hasElemNamedL "p" (removeCharsetL hkids) = false :=
      hasElemNamedL_removeCharset "p" (by decide) hkids hnp
    have s1 : hasElemNamedL "p" (removeCharsetL hkids ++ [canonicalCharsetMeta]) = false := by
      rw [hasElemNamedL_append, s0]
      rfl
    have s2 : hasElemNamedL "p"
        (remove_empty_paragraphs (removeCharsetL hkids ++ [canonicalCharsetMeta])) = false :=
      hasElemNamedL_remP "p" (by decide) _ s1
    unfold cvtIf
    by_cases hv : (ver == "1.1") = true
    · rw [if_pos hv, hasElemNamedL_convert "p" (by decide)]
      exact s2
    · rw [if_neg hv]
      exact s2
  have hK : pAttrsL (cvtIf ver (remove_empty_paragraphs
      (removeCharsetL hkids ++ [canonicalCharsetMeta]))) = [] :=
    pAttrsL_of_pFree _ hKfree
  have hB : pAttrsL (cvtIf ver (remove_empty_paragraphs bkids)) = nonEmptyPAttrsL bkids := by
    rw [pAttrsL_cvtIf, pAttrsL_remP]
  rw [show (Node.doctype dt.1 dt.2.1 dt.2.2 :: pre.map clearDoctypeNode ++
      [Node.elem "html" (setAttr ha "xmlns" xhtmlNamespace)
        [Node.elem "head" hea
          (cvtIf ver (remove_empty_paragraphs
            (removeCharsetL hkids ++ [canonicalCharsetMeta]))),
         Node.elem "body" ba
           [Node.elem "div" [] (cvtIf ver (remove_empty_paragraphs bkids))]]]) =
    ((Node.doctype dt.1 dt.2.1 dt.2.2 :: pre.map clearDoctypeNode) ++
      [Node.elem "html" (setAttr ha "xmlns" xhtmlNamespace)
        [Node.elem "head" hea
          (cvtIf ver (remove_empty_paragraphs
            (removeCharsetL hkids ++ [canonicalCharsetMeta]))),
         Node.elem "body" ba
           [Node.elem "div" [] (cvtIf ver (remove_empty_paragraphs bkids))]]]) from rfl]
  rw [pAttrsL_append]
  rw [pAttrsL_nonElem _ (by
    intro n hn
    rcases List.mem_cons.mp hn with rfl | hn2
    · rfl
    · exact clear_nonElem_of_nonElem pre hpre n hn2), List.nil_append]
  simp only [pAttrsL, pAttrsNode.go, pAttrsNode]
  rw [show pAttrsNode.go (cvtIf ver (remove_empty_paragraphs
      (removeCharsetL hkids ++ [canonicalCharsetMeta]))) =
    pAttrsL (cvtIf ver (remove_empty_paragraphs
      (removeCharsetL hkids ++ [canonicalCharsetMeta]))) from rfl, hK,
    show pAttrsNode.go (cvtIf ver (remove_empty_paragraphs bkids)) =
    pAttrsL (cvtIf ver (remove_empty_paragraphs bkids)) from rfl, hB]
  simp

/-- Witness for C8: a whitespace-only paragraph disappears while a paragraph
holding an image survives. -/
theorem empty_paragraphs_removed_witness :
    pAttrsL (remove_empty_paragraphs c8Bkids) = nonEmptyPAttrsL c8Bkids ∧
    pAttrsL c8Out = nonEmptyPAttrsL c8Bkids :=
  empty_paragraphs_removed [] [] c8Bkids [] [] [] "1.1"
    ("html", "-//W3C//DTD XHTML 1.1//EN", "http://www.w3.org/TR/xhtml11/DTD/xhtml11.dtd")
    c8Out rfl (by simp) rfl rfl rfl

/-! ## Claim C9: idempotence of the declaration-replacing steps -/

/-- C9: normalizing the output of a first normalization pass again (with any
supported versions) yields a document that still has exactly one doctype and
exactly one charset-declaring meta in the head — the second pass's doctype
and charset replacement does not duplicate entries. -/
theorem normalize_twice_no_duplicates (pre hkids bkids : List Node)
    (ha hea ba : List (String × String)) (ver ver' : String)
    (dt dt' : String × String × String) (out1 out2 : Doc)
    (hver : DOCTYPES ver = some dt)
    (hver' : DOCTYPES ver' = some dt')
    (hpre : ∀ n ∈ pre, isElemNode n = false)
    (hnb : hasElemNamedL "body" hkids = false)
    (hdh : countDoctypeL hkids = 0)
    (hdb : countDoctypeL bkids = 0)
    (hout1 : html2xhtml (pre ++ [Node.elem "html" ha
      [Node.elem "head" hea hkids, Node.elem "body" ba bkids]]) ver = some out1)
    (hout2 : html2xhtml out1 ver' = some out2) :
    countDoctypeL out2 = 1 ∧
    ∃ htmlN headN,
      findElemL "html" out2 = some htmlN ∧
      findElemL "head" (childrenOf htmlN) = some headN ∧
      countCharsetL (childrenOf headN) = 1 := by
  have hshape := html2xhtml_shape pre hkids bkids ha hea ba ver dt hver hpre hnb
  rw [hout1] at hshape
  have hne := Option.some.inj hshape
  subst hne
  have hpre2 : ∀ n ∈ (Node.doctype dt.1 dt.2.1 dt.2.2 :: pre.map clearDoctypeNode),
      isElemNode n = false := by
    intro n hn
    rcases List.mem_cons.mp hn with rfl | hn2
    · rfl
    · exact clear_nonElem_of_nonElem pre hpre n hn2
  have hnb2 : hasElemNamedL "body" (cvtIf ver (remove_empty_paragraphs
      (removeCharsetL hkids ++ [canonicalCharsetMeta]))) = false := by
    have s0 : hasElemNamedL "body" (removeCharsetL hkids) = false :=
      hasElemNamedL_removeCharset "body" (by decide) hkids hnb
    have s1 : hasElemNamedL "body" (removeCharsetL hkids ++ [canonicalCharsetMeta]) = false := by
      rw [hasElemNamedL_append, s0]
      rfl
    have s2 : hasElemNamedL "body"
        (remove_empty_paragraphs (removeCharsetL hkids ++ [canonicalCharsetMeta])) = false :=
      hasElemNamedL_remP "body" (by decide) _ s1
    unfold cvtIf
    by_cases hv : (ver == "1.1") = true
    · rw [if_pos hv, hasElemNamedL_convert "body" (by decide)]
      exact s2
    · rw [if_neg hv]
      exact s2
  have hdh2 : countDoctypeL (cvtIf ver (remove_empty_paragraphs
      (removeCharsetL hkids ++ [canonicalCharsetMeta]))) = 0 := by
    rw [countDoctypeL_cvtIf]
    have h1 := countDoctypeL_remP_le (removeCharsetL hkids ++ [canonicalCharsetMeta])
    rw [countDoctypeL_append] at h1
    have h2 := countDoctypeL_removeCharset_le hkids
    have h3 : countDoctypeL [canonicalCharsetMeta] = 0 := rfl
    omega
  have hdb2 : countDoctypeL
      [Node.elem "div" [] (cvtIf ver (remove_empty_paragraphs bkids))] = 0 := by
    have h1 : countDoctypeL (cvtIf ver (remove_empty_paragraphs bkids)) = 0 := by
      rw [countDoctypeL_cvtIf]
      have h2 := countDoctypeL_remP_le bkids
      omega
    simp only [countDoctypeL, countDoctypeNode.go, countDoctypeNode] at h1 ⊢
    omega
  have hout2' : html2xhtml ((Node.doctype dt.1 dt.2.1 dt.2.2 :: pre.map clearDoctypeNode) ++
      [Node.elem "html" (setAttr ha "xmlns" xhtmlNamespace)
        [Node.elem "head" hea
          (cvtIf ver (remove_empty_paragraphs
            (removeCharsetL hkids ++ [canonicalCharsetMeta]))),
         Node.elem "body" ba
           [Node.elem "div" [] (cvtIf ver (remove_empty_paragraphs bkids))]]]) ver' =
      some out2 := hout2
  obtain ⟨hd, htmlN, headN, h1, h2, h3, h4, h5⟩ :=
    uniqueDecls_of_shaped (Node.doctype dt.1 dt.2.1 dt.2.2 :: pre.map clearDoctypeNode)
      (cvtIf ver (remove_empty_paragraphs
        (removeCharsetL hkids ++ [canonicalCharsetMeta])))
      [Node.elem "div" [] (cvtIf ver (remove_empty_paragraphs bkids))]
      (setAttr ha "xmlns" xhtmlNamespace) hea ba ver' dt' out2
      hver' hpre2 hnb2 hdh2 hdb2 hout2'
  exact ⟨hd, htmlN, headN, h1, h4, h5⟩

/-- Witness for C9: the minimal document normalized twice. -/
theorem normalize_twice_no_duplicates_witness :
    countDoctypeL c9Out = 1 ∧
    ∃ htmlN headN,
      findElemL "html" c9Out = some htmlN ∧
      findElemL "head" (childrenOf htmlN) = some headN ∧
      countCharsetL (childrenOf headN) = 1 :=
  normalize_twice_no_duplicates [] [] [] [] [] [] "1.1" "1.1"
    ("html", "-//W3C//DTD XHTML 1.1//EN", "http://www.w3.org/TR/xhtml11/DTD/xhtml11.dtd")
    ("html", "-//W3C//DTD XHTML 1.1//EN", "http://www.w3.org/TR/xhtml11/DTD/xhtml11.dtd")
    c4Out c9Out rfl rfl (by simp) rfl rfl rfl rfl rfl

/-! ## Claim C6: NCX navigation structure and numbering -/

theorem navNums_append (a : Nat) : ∀ s b : Nat,
    navNums s (a + b) = navNums s a ++ navNums (s + a) b := by
  induction a with
  | zero =>
    intro s b
    simp [navNums]
  | succ a ih =>
    intro s b
    have h1 : a + 1 + b = (a + b) + 1 := by omega
    rw [h1]
    show some (toString s) :: navNums (s + 1) (a + b) = _
    rw [ih (s + 1) b]
    have h2 : s + 1 + a = s + (a + 1) := by omega
    rw [h2]
    rfl

theorem navPlayOrderOf_point (n : Nat) (t s : String) :
    navPlayOrderOf (create_ncx_nav_point n t s) = some (toString n) := rfl

theorem navPlayOrderOf_top (n : Nat) (t s : String) (subs : List Node) :
    navPlayOrderOf (appendChildren (create_ncx_nav_point n t s) subs) = some (toString n) := rfl

theorem navSrcOf_point (n : Nat) (t s : String) :
    navSrcOf (create_ncx_nav_point n t s) = some s := rfl

theorem navSrcOf_top (n : Nat) (t s : String) (subs : List Node) :
    navSrcOf (appendChildren (create_ncx_nav_point n t s) subs) = some s := rfl

theorem navSubsOf_top (n : Nat) (t s : String) (subs : List Node) :
    navSubsOf (appendChildren (create_ncx_nav_point n t s) subs) = subs := rfl

theorem navLabelTextOf_top (n : Nat) (t s : String) (subs : List Node) :
    navLabelTextOf (appendChildren (create_ncx_nav_point n t s) subs) = t := by
  show textOfNode (Node.elem "navLabel" [] [Node.elem "text" [] [Node.text t]]) = t
  show (t ++ "") ++ "" = t
  simp

/-- Structure of the nested navPoints built for the `h2`s of one chapter. -/
theorem create_sub_nav_points_spec (outname : String) (prs : List (Option Node × Node)) :
    ∀ (m m' : Nat) (l : List Node),
    create_sub_nav_points outname m prs = some (l, m') →
    l.length = prs.length ∧ m' = m + prs.length ∧
    l.map navPlayOrderOf = navNums m prs.length ∧
    (∀ pt ∈ l, ∃ frag, navSrcOf pt = some (outname ++ "#" ++ frag)) := by
  induction prs with
  | nil =>
    intro m m' l h
    simp only [create_sub_nav_points, Option.some.injEq, Prod.mk.injEq] at h
    obtain ⟨hl, hm⟩ := h
    subst hl
    subst hm
    exact ⟨rfl, by simp, rfl, by simp⟩
  | cons pr rest ih =>
    intro m m' l h
    simp only [create_sub_nav_points] at h
    cases hfs : h2FragmentSrc outname pr with
    | none =>
      rw [hfs] at h
      exact absurd h (by simp)
    | some ls =>
      rw [hfs] at h
      obtain ⟨lbl, src⟩ := ls
      cases hrec : create_sub_nav_points outname (m + 1) rest with
      | none =>
        rw [hrec] at h
        exact absurd h (by simp)
      | some pr2 =>
        rw [hrec] at h
        obtain ⟨l2, m2⟩ := pr2
        simp only [Option.some.injEq, Prod.mk.injEq] at h
        obtain ⟨hl, hm⟩ := h
        subst hl
        subst hm
        obtain ⟨ihlen, ihm, ihplay, ihsrc⟩ := ih (m + 1) m2 l2 hrec
        have hsrcshape : ∃ frag, src = outname ++ "#" ++ frag := by
          rcases pr with ⟨prv, h2n⟩
          cases prv with
          | none => simp [h2FragmentSrc] at hfs
          | some pn =>
            cases pn with
            | text s2 => simp [h2FragmentSrc] at hfs
            | doctype a b c2 => simp [h2FragmentSrc] at hfs
            | elem nm2 a2 kids2 =>
              simp only [h2FragmentSrc] at hfs
              cases hfa : findElemL "a" kids2 with
              | none =>
                rw [hfa] at hfs
                simp at hfs
              | some an =>
                rw [hfa] at hfs
                cases an with
                | text s3 => simp at hfs
                | doctype a3 b3 c3 => simp at hfs
                | elem nmA aA kA =>
                  cases hga : getAttr aA "id" with
                  | none => simp [hga] at hfs
                  | some v =>
                    simp only [hga, Option.some.injEq, Prod.mk.injEq] at hfs
                    exact ⟨v, hfs.2.symm⟩
        refine ⟨by simp [ihlen], by simp at ihm ⊢; omega, ?_, ?_⟩
        · show navPlayOrderOf (create_ncx_nav_point m lbl src) :: l2.map navPlayOrderOf =
            navNums m (rest.length + 1)
          rw [navPlayOrderOf_point, ihplay]
          rfl
        · intro pt hpt
          rcases List.mem_cons.mp hpt with rfl | hpt2
          · obtain ⟨frag, hfrag⟩ := hsrcshape
            exact ⟨frag, by rw [navSrcOf_point, hfrag]⟩
          · exact ihsrc pt hpt2

/-- Structure of the navPoint list built for a chapter list, threading the
play-order counter. -/
theorem create_nav_points_spec (cs : List Chapter) :
    ∀ (n n2 : Nat) (pts : List Node),
    create_nav_points n cs = some (pts, n2) →
    pts.length = cs.length ∧
    n2 = n + navCount cs ∧
    pts.map navLabelTextOf = cs.map Chapter.title ∧
    pts.map navSrcOf = cs.map (fun c => some c.outname) ∧
    flatPlayOrders pts = navNums n (navCount cs) ∧
    List.Forall₂ (fun pt c =>
      (navSubsOf pt).length = (h2PrevsL c.xhtml).length ∧
      ∀ s ∈ navSubsOf pt, ∃ frag, navSrcOf s = some (c.outname ++ "#" ++ frag))
      pts cs := by
  induction cs with
  | nil =>
    intro n n2 pts h
    simp only [create_nav_points, Option.some.injEq, Prod.mk.injEq] at h
    obtain ⟨hl, hm⟩ := h
    subst hl
    subst hm
    exact ⟨rfl, by simp [navCount], rfl, rfl, rfl, List.Forall₂.nil⟩
  | cons c rest ih =>
    intro n n2 pts h
    simp only [create_nav_points] at h
    cases hsub : create_sub_nav_points c.outname (n + 1) (h2PrevsL c.xhtml) with
    | none =>
      rw [hsub] at h
      exact absurd h (by simp)
    | some pr1 =>
      rw [hsub] at h
      obtain ⟨subs, n1⟩ := pr1
      cases hrec : create_nav_points n1 rest with
      | none => simp [hrec] at h
      | some pr2 =>
        obtain ⟨pts2, n3⟩ := pr2
        simp only [hrec, Option.some.injEq, Prod.mk.injEq] at h
        obtain ⟨hl, hm⟩ := h
        subst hl
        subst hm
        obtain ⟨slen, sm, splay, ssrc⟩ :=
          create_sub_nav_points_spec c.outname (h2PrevsL c.xhtml) (n + 1) n1 subs hsub
        obtain ⟨ihlen, ihm, ihlbl, ihsrc, ihplay, ihfa⟩ := ih n1 n3 pts2 hrec
        have hcount : navCount (c :: rest) = 1 + (h2PrevsL c.xhtml).length + navCount rest :=
          rfl
        refine ⟨by simp [ihlen], by rw [hcount]; omega, ?_, ?_, ?_, ?_⟩
        · show navLabelTextOf (appendChildren
            (create_ncx_nav_point n c.title c.outname) subs) :: pts2.map navLabelTextOf = _
          rw [navLabelTextOf_top, ihlbl]
          rfl
        · show navSrcOf (appendChildren
            (create_ncx_nav_point n c.title c.outname) subs) :: pts2.map navSrcOf = _
          rw [navSrcOf_top, ihsrc]
          rfl
        · show navPlayOrderOf (appendChildren (create_ncx_nav_point n c.title c.outname) subs) ::
            ((navSubsOf (appendChildren (create_ncx_nav_point n c.title c.outname) subs)).map
              navPlayOrderOf ++ flatPlayOrders pts2) = _
          rw [navPlayOrderOf_top, navSubsOf_top, splay, ihplay, hcount]
          have h1 : 1 + (h2PrevsL c.xhtml).length + navCount rest =
              ((h2PrevsL c.xhtml).length + navCount rest) + 1 := by omega
          rw [h1]
          show some (toString n) ::
              (navNums (n + 1) (h2PrevsL c.xhtml).length ++ navNums n1 (navCount rest)) =
            some (toString n) ::
              navNums (n + 1) ((h2PrevsL c.xhtml).length + navCount rest)
          rw [navNums_append (h2PrevsL c.xhtml).length (n + 1) (navCount rest)]
          rw [show n + 1 + (h2PrevsL c.xhtml).length = n1 from by omega]
        · refine List.Forall₂.cons ⟨?_, ?_⟩ ihfa
          · rw [navSubsOf_top]
            exact slen
          · intro s hs
            rw [navSubsOf_top] at hs
            exact ssrc s hs

/-- C6: on success, the NCX builder returns path "OEBPS/toc.ncx" and a
navigation document whose navMap has one top-level navPoint per chapter, in
chapter order, labelled by the chapter title and pointing at the chapter
file; the playOrder numbers over all navPoints in document order are the
consecutive integers starting at 1; and each chapter contributes one nested
navPoint per `h2` of its document, each pointing at a fragment anchor of
that chapter's file. -/
theorem ncx_navigation_structure (book : Book) (uuid : String) (path : String) (d : Doc)
    (h : create_ncx_doc book uuid = some (path, d)) :
    path = "OEBPS/toc.ncx" ∧
    (∃ s, create_ncx book uuid = some ("OEBPS/toc.ncx", s)) ∧
    ∃ pts,
      d = [ncxDoctypeNode,
           Node.elem "ncx"
             [("xmlns", "http://www.daisy.org/z3986/2005/ncx/"), ("version", "2005-1")]
             [create_ncx_head uuid, create_ncx_title book.metadata,
              Node.elem "navMap" [] pts]] ∧
      pts.length = book.chapters.length ∧
      pts.map navLabelTextOf = book.chapters.map Chapter.title ∧
      pts.map navSrcOf = book.chapters.map (fun c => some c.outname) ∧
      flatPlayOrders pts = navNums 1 (navCount book.chapters) ∧
      List.Forall₂ (fun pt c =>
        (navSubsOf pt).length = (h2PrevsL c.xhtml).length ∧
        ∀ s ∈ navSubsOf pt, ∃ frag, navSrcOf s = some (c.outname ++ "#" ++ frag))
        pts book.chapters := by
  have hpath : path = "OEBPS/toc.ncx" := by
    unfold create_ncx_doc at h
    cases hm : create_ncx_nav_map book.chapters with
    | none =>
      rw [hm] at h
      exact absurd h (by simp)
    | some nmv =>
      rw [hm] at h
      simp only [Option.map_some', Option.some.injEq, Prod.mk.injEq] at h
      exact h.1.symm
  refine ⟨hpath, ⟨renderDoc d, ?_⟩, ?_⟩
  · unfold create_ncx
    rw [h, hpath]
    rfl
  · unfold create_ncx_doc create_ncx_nav_map at h
    cases hnp : create_nav_points 1 book.chapters with
    | none =>
      rw [hnp] at h
      exact absurd h (by simp)
    | some pr =>
      obtain ⟨pts0, nend⟩ := pr
      rw [hnp] at h
      simp only [Option.map_some', Option.some.injEq, Prod.mk.injEq] at h
      obtain ⟨slen, _, slbl, ssrc, splay, sfa⟩ :=
        create_nav_points_spec book.chapters 1 nend pts0 hnp
      exact ⟨pts0, h.2.symm, slen, slbl, ssrc, splay, sfa⟩

/-- Witness for C6 on a one-chapter book whose chapter has one `h2`. -/
theorem ncx_navigation_structure_witness :
    "OEBPS/toc.ncx" = "OEBPS/toc.ncx" ∧
    (∃ s, create_ncx c6Book "u" = some ("OEBPS/toc.ncx", s)) ∧
    ∃ pts,
      c6NcxDoc = [ncxDoctypeNode,
           Node.elem "ncx"
             [("xmlns", "http://www.daisy.org/z3986/2005/ncx/"), ("version", "2005-1")]
             [create_ncx_head "u", create_ncx_title c6Book.metadata,
              Node.elem "navMap" [] pts]] ∧
      pts.length = c6Book.chapters.length ∧
      pts.map navLabelTextOf = c6Book.chapters.map Chapter.title ∧
      pts.map navSrcOf = c6Book.chapters.map (fun c => some c.outname) ∧
      flatPlayOrders pts = navNums 1 (navCount c6Book.chapters) ∧
      List.Forall₂ (fun pt c =>
        (navSubsOf pt).length = (h2PrevsL c.xhtml).length ∧
        ∀ s ∈ navSubsOf pt, ∃ frag, navSrcOf s = some (c.outname ++ "#" ++ frag))
        pts c6Book.chapters :=
  ncx_navigation_structure c6Book "u" "OEBPS/toc.ncx" c6NcxDoc rfl

end ZGE
